import Mathlib

/-!
Verification of the codecrafters-sqlite-rust query engine.

This file shallowly embeds the decoding and B-tree traversal core of the
repository in Lean and proves (or refutes) the frozen claims about it.

Byte-level code (`src/lib.rs`, `src/serial_value.rs`, `src/db_header.rs`,
`src/db_file.rs`, `src/btree_page.rs`, `src/schema_object.rs`) is modelled
over a `Cursor` of natural-number bytes; machine integers are `Nat`/`Int`
with explicit reductions modulo powers of two where Rust casts or
wrapping shifts occur.  Fallible Rust code (`anyhow::Result`) is modelled
with `Option`, or with `Res` where a Rust panic (`expect`, `assert_eq!`,
out-of-bounds indexing, `unreachable!`) must be distinguished from a
returned error.

The B-tree traversal functions of `src/main.rs` are modelled over decoded
page trees (`ITree` for index B-trees, `TTree` for table B-trees): a tree
node corresponds to a decoded `BTreePage` view, interior nodes carrying
their cells in cell-pointer order paired with the subtree behind each
cell's left-child pointer, plus the subtree behind the page's right-most
pointer.  Loading a page by number is total on these trees; the
well-formedness assumptions of the claims (acyclicity, key ordering)
are exactly what makes this tree view faithful.
-/

/-- A read cursor over a byte buffer, modelling `std::io::Cursor<&[u8]>`:
the buffer plus a current position.  Bytes are naturals; a read
normalises modulo 256, which is the identity on actual byte data. -/
structure Cursor where
  bytes : List Nat
  pos : Nat
deriving DecidableEq, Repr

/-- Read one byte (`read_u8`), failing at end of input. -/
def rdU8 (c : Cursor) : Option (Nat × Cursor) :=
  match c.bytes.get? c.pos with
  | none => none
  | some b => some (b % 256, { c with pos := c.pos + 1 })

/-- Read `n` bytes returning them most-significant first
(`read_exact` into an `n`-byte buffer), failing unless all are present. -/
def rdBytes : Nat → Cursor → Option (List Nat × Cursor)
  | 0, c => some ([], c)
  | n + 1, c =>
    match rdU8 c with
    | none => none
    | some (b, c') =>
      match rdBytes n c' with
      | none => none
      | some (bs, c'') => some (b :: bs, c'')

/-- Big-endian value of a byte list (most significant first). -/
def beVal (bs : List Nat) : Nat := bs.foldl (fun acc b => acc * 256 + b) 0

/-- Read an `n`-byte big-endian unsigned value. -/
def rdBE (n : Nat) (c : Cursor) : Option (Nat × Cursor) :=
  match rdBytes n c with
  | none => none
  | some (bs, c') => some (beVal bs, c')

/-- Two's-complement reading of a `w`-bit unsigned value as a signed
integer, modelling Rust's sign-extending reads (`read_i8`, `read_i16`,
`read_i24`, ...). -/
def toSigned (w : Nat) (v : Nat) : Int :=
  if v < 2 ^ (w - 1) then (v : Int) else (v : Int) - 2 ^ w

/-- Cast of an `Int` to `u64`/`usize` by two's complement
(Rust `as u64` / `as usize` on a 64-bit target). -/
def toU64 (i : Int) : Nat := (i % (2 ^ 64 : Int)).toNat

/-- Cast of a `u64` value to `i64` by two's complement (Rust `as i64`). -/
def toI64 (n : Nat) : Int :=
  if n % 2 ^ 64 < 2 ^ 63 then ((n % 2 ^ 64 : Nat) : Int)
  else ((n % 2 ^ 64 : Nat) : Int) - 2 ^ 64

/-- One pass of the varint loop of `ReadVarint::read_varint`
(`src/lib.rs` lines 30-47).  The accumulator updates are the Rust
wrapping shift-then-add on `u64`.  The counter starts at 9 because the
source loop header is `for _ in 0..=8`, i.e. nine seven-bit iterations;
when the counter is exhausted one further byte is read and all eight of
its bits are used. -/
def readVarintAux (res : Nat) (c : Cursor) : Nat → Option (Nat × Cursor)
  | 0 =>
    match rdU8 c with
    | none => none
    | some (a, c') => some ((res * 256) % 2 ^ 64 + a, c')
  | n + 1 =>
    match rdU8 c with
    | none => none
    | some (a, c') =>
      let res' := (res * 128) % 2 ^ 64 + a % 128
      if a < 128 then some (res', c')
      else readVarintAux res' c' n

/-- Model of `ReadVarint::read_varint` (`src/lib.rs`).  Returns the
decoded value and the advanced cursor. -/
def readVarint (c : Cursor) : Option (Nat × Cursor) := readVarintAux 0 c 9

theorem readVarintAux_advances (n : Nat) :
    ∀ res c v c', readVarintAux res c n = some (v, c') →
      c'.bytes = c.bytes ∧ c.pos < c'.pos := by
  induction n with
  | zero =>
    intro res c v c' h
    simp only [readVarintAux] at h
    cases hb : rdU8 c with
    | none => rw [hb] at h; exact absurd h (by simp)
    | some p =>
      rw [hb] at h
      obtain ⟨b, c₁⟩ := p
      simp only [rdU8] at hb
      cases hg : c.bytes.get? c.pos with
      | none => rw [hg] at hb; exact absurd hb (by simp)
      | some b0 =>
        rw [hg] at hb
        simp only [Option.some.injEq, Prod.mk.injEq] at hb h
        obtain ⟨-, rfl⟩ := hb
        obtain ⟨-, rfl⟩ := h
        exact ⟨rfl, Nat.lt_succ_self _⟩
  | succ n ih =>
    intro res c v c' h
    simp only [readVarintAux] at h
    cases hb : rdU8 c with
    | none => rw [hb] at h; exact absurd h (by simp)
    | some p =>
      rw [hb] at h
      obtain ⟨b, c₁⟩ := p
      have hbc : c₁.bytes = c.bytes ∧ c₁.pos = c.pos + 1 := by
        simp only [rdU8] at hb
        cases hg : c.bytes.get? c.pos with
        | none => rw [hg] at hb; exact absurd hb (by simp)
        | some b0 =>
          rw [hg] at hb
          simp only [Option.some.injEq, Prod.mk.injEq] at hb
          obtain ⟨-, rfl⟩ := hb
          exact ⟨rfl, rfl⟩
      by_cases hlt : b < 128
      · simp only [hlt, if_pos] at h
        simp only [Option.some.injEq, Prod.mk.injEq] at h
        obtain ⟨-, rfl⟩ := h
        exact ⟨hbc.1, hbc.2 ▸ Nat.lt_succ_self _⟩
      · simp only [hlt, if_neg, not_false_iff] at h
        obtain ⟨h1, h2⟩ := ih _ _ _ _ h
        exact ⟨h1.trans hbc.1, lt_trans (hbc.2 ▸ Nat.lt_succ_self _) h2⟩

theorem readVarint_advances {c : Cursor} {v : Nat} {c' : Cursor}
    (h : readVarint c = some (v, c')) :
    c'.bytes = c.bytes ∧ c.pos < c'.pos :=
  readVarintAux_advances 9 0 c v c' h

/-! ## Serial values (`src/serial_value.rs`) -/

/-- The decoded cell value type, mirroring `enum SerialValue`.  Integer
payloads are carried as `Int` (the Rust fields are `i8`/`i16`/`i32`/`i64`);
a float is carried as its raw 64-bit big-endian bit pattern, since no
claim depends on float arithmetic, only on the bytes read. -/
inductive SerialValue where
  | null
  | int8 (i : Int)
  | int16 (i : Int)
  | int24 (i : Int)
  | int32 (i : Int)
  | int48 (i : Int)
  | int64 (i : Int)
  | float64 (bits : Nat)
  | zero
  | one
  | blob (bs : List Nat)
  | text (s : String)
deriving DecidableEq, Repr

/-- Decode a UTF-8 byte sequence exactly as Rust `String::from_utf8`
accepts it: shortest-form sequences only, surrogates and code points
above 0x10FFFF rejected. -/
def utf8Chars : List Nat → Option (List Char)
  | [] => some []
  | b :: rest =>
    if b < 0x80 then
      match utf8Chars rest with
      | none => none
      | some cs => some (Char.ofNat b :: cs)
    else if 0xC2 ≤ b ∧ b ≤ 0xDF then
      match rest with
      | b2 :: rest2 =>
        if 0x80 ≤ b2 ∧ b2 ≤ 0xBF then
          match utf8Chars rest2 with
          | none => none
          | some cs => some (Char.ofNat ((b - 0xC0) * 64 + (b2 - 0x80)) :: cs)
        else none
      | [] => none
    else if 0xE0 ≤ b ∧ b ≤ 0xEF then
      match rest with
      | b2 :: b3 :: rest3 =>
        let lo2 := if b = 0xE0 then 0xA0 else 0x80
        let hi2 := if b = 0xED then 0x9F else 0xBF
        if (lo2 ≤ b2 ∧ b2 ≤ hi2) ∧ (0x80 ≤ b3 ∧ b3 ≤ 0xBF) then
          match utf8Chars rest3 with
          | none => none
          | some cs =>
            some (Char.ofNat ((b - 0xE0) * 4096 + (b2 - 0x80) * 64 + (b3 - 0x80)) :: cs)
        else none
      | _ => none
    else if 0xF0 ≤ b ∧ b ≤ 0xF4 then
      match rest with
      | b2 :: b3 :: b4 :: rest4 =>
        let lo2 := if b = 0xF0 then 0x90 else 0x80
        let hi2 := if b = 0xF4 then 0x8F else 0xBF
        if (lo2 ≤ b2 ∧ b2 ≤ hi2) ∧ (0x80 ≤ b3 ∧ b3 ≤ 0xBF) ∧ (0x80 ≤ b4 ∧ b4 ≤ 0xBF) then
          match utf8Chars rest4 with
          | none => none
          | some cs =>
            some (Char.ofNat
              ((b - 0xF0) * 262144 + (b2 - 0x80) * 4096 + (b3 - 0x80) * 64 + (b4 - 0x80)) :: cs)
        else none
      | _ => none
    else none

/-- Model of Rust `String::from_utf8`. -/
def stringFromUtf8 (bs : List Nat) : Option String :=
  match utf8Chars bs with
  | none => none
  | some cs => some (String.mk cs)

namespace SerialValue

/-- Model of `SerialValue::read` (`src/serial_value.rs` lines 25-54):
dispatch on the serial type, reading the value's bytes from the cursor.
The arms appear in the order of the Rust `match`: literals `0`-`9`,
the reserved codes `10 | 11`, then the parity-guarded blob/text arms
(the final Rust arm is `unreachable!()` and indeed cannot be reached,
parity being total). -/
def read (t : Nat) (c : Cursor) : Option (SerialValue × Cursor) :=
  match t with
  | 0 => some (.null, c)
  | 1 =>
    match rdBE 1 c with
    | none => none
    | some (v, c') => some (.int8 (toSigned 8 v), c')
  | 2 =>
    match rdBE 2 c with
    | none => none
    | some (v, c') => some (.int16 (toSigned 16 v), c')
  | 3 =>
    match rdBE 3 c with
    | none => none
    | some (v, c') => some (.int24 (toSigned 24 v), c')
  | 4 =>
    match rdBE 4 c with
    | none => none
    | some (v, c') => some (.int32 (toSigned 32 v), c')
  | 5 =>
    match rdBE 6 c with
    | none => none
    | some (v, c') => some (.int48 (toSigned 48 v), c')
  | 6 =>
    match rdBE 8 c with
    | none => none
    | some (v, c') => some (.int64 (toSigned 64 v), c')
  | 7 =>
    match rdBE 8 c with
    | none => none
    | some (v, c') => some (.float64 v, c')
  | 8 => some (.zero, c)
  | 9 => some (.one, c)
  | 10 => none
  | 11 => none
  | t =>
    if t % 2 = 0 then
      match rdBytes ((t - 12) / 2) c with
      | none => none
      | some (bs, c') => some (.blob bs, c')
    else
      match rdBytes ((t - 13) / 2) c with
      | none => none
      | some (bs, c') =>
        match stringFromUtf8 bs with
        | none => none
        | some s => some (.text s, c')

/-- Model of `SerialValue::as_rowid` (`src/serial_value.rs` lines 56-64):
the six integer variants are cast `as u64`; every other variant gives
`none`. -/
def asRowid : SerialValue → Option Nat
  | .int8 i => some (toU64 i)
  | .int16 i => some (toU64 i)
  | .int24 i => some (toU64 i)
  | .int32 i => some (toU64 i)
  | .int48 i => some (toU64 i)
  | .int64 i => some (toU64 i)
  | _ => none

/-- Model of `SerialValue::as_usize` (`src/serial_value.rs` lines 66-74);
`usize` is 64 bits wide on the targets the program supports. -/
def asUsize : SerialValue → Option Nat
  | .int8 i => some (toU64 i)
  | .int16 i => some (toU64 i)
  | .int24 i => some (toU64 i)
  | .int32 i => some (toU64 i)
  | .int48 i => some (toU64 i)
  | .int64 i => some (toU64 i)
  | _ => none

/-- Model of the `Display` implementation for `SerialValue`
(`src/serial_value.rs` lines 77-92).  Rust renders an `f64` with a
value-dependent shortest-round-trip algorithm; the rendering function
for floats is taken as a parameter `fd` on the bit pattern, so every
theorem below holds for whatever that rendering is.  Integers render in
decimal exactly as Lean's `Int` does; a blob renders as the `{:?}` debug
list of its bytes. -/
def display (fd : Nat → String) : SerialValue → String
  | .null => "(null)"
  | .zero => "0"
  | .one => "1"
  | .int8 i => toString i
  | .int16 i => toString i
  | .int24 i => toString i
  | .int32 i => toString i
  | .int48 i => toString i
  | .int64 i => toString i
  | .float64 bits => fd bits
  | .text t => t
  | .blob bs => "[" ++ String.intercalate ", " (bs.map toString) ++ "]"

end SerialValue

/-! ## Record payloads (`read_payload` in `src/btree_page.rs`, and the
identical inline loop in `src/schema_object.rs`) -/

/-- The serial-type loop `while reader.stream_position()? < header_start
+ header_size`.  Each loop pass reads one varint, which consumes at
least one byte, so the position strictly increases and the pass count is
bounded by `stop - pos`; that bound is used as structural fuel.  The
fuel-exhausted-while-below-`stop` branch is unreachable when the fuel is
initialised that way (see `readVarint_advances`). -/
def readSerialTypesAux (stop : Nat) : Nat → Cursor → Option (List Nat × Cursor)
  | 0, c => if c.pos < stop then none else some ([], c)
  | fuel + 1, c =>
    if c.pos < stop then
      match readVarint c with
      | none => none
      | some (t, c') =>
        match readSerialTypesAux stop fuel c' with
        | none => none
        | some (ts, c'') => some (t :: ts, c'')
    else some ([], c)

/-- Read the record header's serial-type varints up to byte offset
`stop`. -/
def readSerialTypes (stop : Nat) (c : Cursor) : Option (List Nat × Cursor) :=
  readSerialTypesAux stop (stop - c.pos) c

/-- Read one value per serial type, in order (the second loop of
`read_payload`). -/
def readValues : List Nat → Cursor → Option (List SerialValue × Cursor)
  | [], c => some ([], c)
  | t :: ts, c =>
    match SerialValue.read t c with
    | none => none
    | some (v, c') =>
      match readValues ts c' with
      | none => none
      | some (vs, c'') => some (v :: vs, c'')

/-- Model of `read_payload` (`src/btree_page.rs` lines 211-233): note
the header-size varint counts from `header_start`, i.e. includes its own
bytes. -/
def readPayload (c : Cursor) : Option (List SerialValue × Cursor) :=
  let headerStart := c.pos
  match readVarint c with
  | none => none
  | some (headerSize, c₁) =>
    match readSerialTypes (headerStart + headerSize) c₁ with
    | none => none
    | some (ts, c₂) =>
      match readValues ts c₂ with
      | none => none
      | some (vs, c₃) => some (vs, c₃)

/-! ## B-tree pages (`src/btree_page.rs`) -/

/-- The page kind tag, mirroring `enum PageType`. -/
inductive PageType where
  | interiorIndex
  | interiorTable
  | leafIndex
  | leafTable
deriving DecidableEq, Repr

/-- Model of `PageType::from` on the page-type byte. -/
def PageType.fromByte (b : Nat) : Option PageType :=
  if b = 0x02 then some .interiorIndex
  else if b = 0x05 then some .interiorTable
  else if b = 0x0a then some .leafIndex
  else if b = 0x0d then some .leafTable
  else none

/-- Model of `PageType::is_interior`. -/
def PageType.isInterior : PageType → Bool
  | .interiorIndex => true
  | .interiorTable => true
  | .leafIndex => false
  | .leafTable => false

/-- Outcome of a Rust computation whose panics matter: a returned
success, a returned `Err`, or a panic (`expect`, `assert!`,
out-of-bounds indexing, `unreachable!`). -/
inductive Res (α : Type) where
  | ok (a : α)
  | err
  | panic
deriving DecidableEq, Repr

/-- Model of `BTreePage::read_cell` (`src/btree_page.rs` lines 167-188):
read and discard the payload-size varint, read the row-id varint on
leaf-table pages only, read the record, then replace a leading NULL with
the row-id cast `as i64` when a row-id was read.  Indexing `values[0]`
panics when the record decodes to zero columns. -/
def readCell (pt : PageType) (c : Cursor) : Res (List SerialValue) :=
  match readVarint c with
  | none => .err
  | some (_, c₁) =>
    let step : Option (Option Nat × Cursor) :=
      match pt with
      | .leafTable =>
        match readVarint c₁ with
        | none => none
        | some (rid, c₂) => some (some rid, c₂)
      | _ => some (none, c₁)
    match step with
    | none => .err
    | some (rowId, c₂) =>
      match readPayload c₂ with
      | none => .err
      | some (values, _) =>
        match values with
        | [] => .panic
        | v :: vs =>
          match rowId with
          | some rid => .ok ((if v = .null then .int64 (toI64 rid) else v) :: vs)
          | none => .ok (v :: vs)

/-- Read `n` big-endian `u16` values (the cell-pointer array loop of
`BTreePage::new`). -/
def rdU16s : Nat → Cursor → Option (List Nat × Cursor)
  | 0, c => some ([], c)
  | n + 1, c =>
    match rdBE 2 c with
    | none => none
    | some (p, c') =>
      match rdU16s n c' with
      | none => none
      | some (ps, c'') => some (p :: ps, c'')

/-- The decoded page view, mirroring `struct BTreePage`. -/
structure BTreePageM where
  pageData : List Nat
  pageType : PageType
  firstFreeblock : Nat
  numCells : Nat
  cellContentStart : Nat
  numFragmentedFreeBytes : Nat
  rightMostPointer : Option Nat
  cellPointers : List Nat
deriving DecidableEq, Repr

/-- Model of `BTreePage::new` (`src/btree_page.rs` lines 79-113):
when the buffer carries the database header the cursor first seeks past
its 100 bytes, then the page header and cell-pointer array are read. -/
def btreePageNew (data : List Nat) (hasDbHeader : Bool) : Option BTreePageM :=
  let c : Cursor := ⟨data, if hasDbHeader then 100 else 0⟩
  match rdU8 c with
  | none => none
  | some (tb, c₁) =>
    match PageType.fromByte tb with
    | none => none
    | some pt =>
      match rdBE 2 c₁ with
      | none => none
      | some (ffb, c₂) =>
        match rdBE 2 c₂ with
        | none => none
        | some (ncells, c₃) =>
          match rdBE 2 c₃ with
          | none => none
          | some (ccs, c₄) =>
            match rdU8 c₄ with
            | none => none
            | some (frag, c₅) =>
              let stepR : Option (Option Nat × Cursor) :=
                if pt.isInterior then
                  match rdBE 4 c₅ with
                  | none => none
                  | some (rp, c₆) => some (some rp, c₆)
                else some (none, c₅)
              match stepR with
              | none => none
              | some (rmp, c₆) =>
                match rdU16s ncells c₆ with
                | none => none
                | some (cps, _) =>
                  some ⟨data, pt, ffb, ncells, ccs, frag, rmp, cps⟩

/-! ## Database header (`src/db_header.rs`) -/

/-- The parsed database header, mirroring the packed `struct DBHeader`.
Only the fields up to `page_size` are named; the remaining 82 bytes are
parsed and retained unused (`restBytes`), exactly as the Rust transmute
retains them. -/
structure DBHeaderM where
  headerString : List Nat
  pageSizeBytes : Nat × Nat
  restBytes : List Nat
deriving DecidableEq, Repr

namespace DBHeader

/-- The packed struct size: 100 bytes. -/
def SIZE : Nat := 100

/-- Model of `DBHeader::from_bytes` (`src/db_header.rs` lines 68-75):
fails unless given exactly 100 bytes, then reinterprets them in place,
the page-size field being bytes 16 and 17. -/
def fromBytes (data : List Nat) : Option DBHeaderM :=
  if data.length = SIZE then
    some ⟨data.take 16, (data.getD 16 0 % 256, data.getD 17 0 % 256), data.drop 18⟩
  else none

/-- Model of the `page_size` accessor generated by `field_decoder!`
(`src/db_header.rs` line 77): `u16::from_be_bytes` of the two stored
bytes, with no further interpretation. -/
def pageSize (h : DBHeaderM) : Nat :=
  h.pageSizeBytes.1 * 256 + h.pageSizeBytes.2

end DBHeader

/-! ## Opening the database file (`src/db_file.rs`) -/

/-- Model of `DBFile::new` (`src/db_file.rs` lines 20-37) on a file
given as its byte content: read the first 100 bytes (`?` on a short
file), parse the header under `.expect`, seek back to the start, read
one full page of `page_size()` bytes (`?` on a short file), and
construct its `BTreePage` under `.expect`.  The two `.expect` calls
panic instead of returning the inner error. -/
def dbFileNew (file : List Nat) : Res (DBHeaderM × BTreePageM) :=
  if file.length < 100 then .err
  else
    match DBHeader.fromBytes (file.take 100) with
    | none => .panic
    | some hdr =>
      let ps := DBHeader.pageSize hdr
      if file.length < ps then .err
      else
        match btreePageNew (file.take ps) true with
        | none => .panic
        | some page => .ok (hdr, page)

/-! ## Schema objects (`src/schema_object.rs`) -/

/-- Mirror of `enum ObjectType`. -/
inductive ObjectType where
  | table
  | index
  | view
  | trigger
deriving DecidableEq, Repr

/-- Model of `ObjectType::from`. -/
def ObjectType.fromString (s : String) : Option ObjectType :=
  if s = "table" then some .table
  else if s = "index" then some .index
  else if s = "view" then some .view
  else if s = "trigger" then some .trigger
  else none

/-- Mirror of `struct SchemaObject`. -/
structure SchemaObjectM where
  objectType : ObjectType
  name : String
  tableName : String
  rootPage : Option Nat
  sql : String
deriving DecidableEq, Repr

/-- Model of `SchemaObject::from` (`src/schema_object.rs` lines 40-117)
on the raw bytes of a leaf-table cell: payload-size and row-id varints,
the record header, an `assert_eq!` that exactly five serial types were
found (a panic otherwise), then the five values with their kind checks.
The `rootpage` column (lines 95-101) accepts only a decoded NULL
(root page absent) or a decoded `Int8`, whose value is cast `as usize`;
any other decoded kind is a `bail!` error. -/
def schemaObjectFrom (data : List Nat) : Res SchemaObjectM :=
  match readVarint ⟨data, 0⟩ with
  | none => .err
  | some (_, c₁) =>
    match readVarint c₁ with
    | none => .err
    | some (_, c₂) =>
      let headerStart := c₂.pos
      match readVarint c₂ with
      | none => .err
      | some (headerSize, c₃) =>
        match readSerialTypes (headerStart + headerSize) c₃ with
        | none => .err
        | some (ts, c₄) =>
          match ts with
          | [t0, t1, t2, t3, t4] =>
            match SerialValue.read t0 c₄ with
            | none => .err
            | some (v0, c₅) =>
              match v0 with
              | .text s0 =>
                match ObjectType.fromString s0 with
                | none => .err
                | some oty =>
                  match SerialValue.read t1 c₅ with
                  | none => .err
                  | some (v1, c₆) =>
                    match v1 with
                    | .text s1 =>
                      match SerialValue.read t2 c₆ with
                      | none => .err
                      | some (v2, c₇) =>
                        match v2 with
                        | .text s2 =>
                          match SerialValue.read t3 c₇ with
                          | none => .err
                          | some (v3, c₈) =>
                            let rooty : Res (Option Nat) :=
                              match v3 with
                              | .null => .ok none
                              | .int8 i => .ok (some (toU64 i))
                              | _ => .err
                            match rooty with
                            | .err => .err
                            | .panic => .panic
                            | .ok rp =>
                              match SerialValue.read t4 c₈ with
                              | none => .err
                              | some (v4, _) =>
                                match v4 with
                                | .text s4 => .ok ⟨oty, s1, s2, rp, s4⟩
                                | _ => .err
                        | _ => .err
                    | _ => .err
              | _ => .err
          | _ => .panic

/-! ## String comparison

Rust `str::cmp` is byte-lexicographic on UTF-8; on valid UTF-8 that
order coincides with code-point lexicographic order, which is Lean's
`String` order, so the comparison is modelled by the latter. -/

/-- Lexicographic three-way comparison of character lists by code
point. -/
def charsCmp : List Char → List Char → Ordering
  | [], [] => .eq
  | [], _ :: _ => .lt
  | _ :: _, [] => .gt
  | a :: as, b :: bs =>
    if a.toNat < b.toNat then .lt
    else if b.toNat < a.toNat then .gt
    else charsCmp as bs

/-- Three-way string comparison as used by `cell_content.cmp(query)`. -/
def strCmp (a b : String) : Ordering :=
  charsCmp a.data b.data

/-- Boolean string order used to state well-formedness bounds. -/
def strLeB (a b : String) : Bool :=
  match strCmp a b with
  | .gt => false
  | _ => true

/-! ## Index B-trees and `search_index` (`src/main.rs` lines 301-374)

An `ITree` is the decoded page graph of an index B-tree: a leaf node
carries the output of `read_cells` on a leaf-index page (each cell's
decoded record, in cell-pointer order) and an interior node carries, in
cell-pointer order, each interior cell's decoded record paired with the
subtree its left-child pointer leads to, plus the subtree behind the
page's right-most pointer (always present on interior pages). -/

inductive ITree where
  | leaf (cells : List (List SerialValue))
  | interior (cells : List (List SerialValue × ITree)) (right : ITree)

/-- The record-splitting part of `read_interior_cell` for an
interior-index cell (`src/btree_page.rs` lines 129-147): `split_last`
the payload (bailing when empty), require the last value to be a rowid
(`as_rowid`, bailing otherwise), and keep the remaining columns. -/
def decodeICell (r : List SerialValue) : Option (List SerialValue × Nat) :=
  match r.getLast? with
  | none => none
  | some lastV =>
    match SerialValue.asRowid lastV with
    | none => none
    | some rid => some (r.dropLast, rid)

/-- The leaf-index arm of `search_index`: filter the decoded cells on
`c[0].to_string() == query` and map to `c[1].as_rowid().unwrap_or(0)`.
A record with no columns makes `read_cells` panic on `values[0]` (and
the filter would index `c[0]` likewise); a matching record with a
single column makes `c[1]` panic; both are modelled as `none`. -/
def searchLeaf (fd : Nat → String) (q : String) :
    List (List SerialValue) → Option (List Nat)
  | [] => some []
  | c :: cs =>
    match c.head? with
    | none => none
    | some v0 =>
      if SerialValue.display fd v0 = q then
        match c.get? 1 with
        | none => none
        | some v1 =>
          match searchLeaf fd q cs with
          | none => none
          | some rs => some ((SerialValue.asRowid v1).getD 0 :: rs)
      else searchLeaf fd q cs

mutual

/-- Model of `search_index` (`src/main.rs` lines 301-374).  On an
interior page `read_interior_cells` first decodes every cell (an error
anywhere fails the whole call — the `cells.all` guard), then the cell
loop runs; the loop's visit to the right-most page, which the source
performs inside the loop body at the last index, is returned as the
`Bool` of `searchLoop` and performed here afterwards, which composes to
the same result.  `search_index` on a table page is `unreachable!`;
`ITree` only represents index pages. -/
def searchIndex (fd : Nat → String) (q : String) : ITree → Option (List Nat)
  | .leaf cells => searchLeaf fd q cells
  | .interior cells right =>
    if cells.all fun cl => (decodeICell cl.1).isSome then
      match searchLoop fd q cells with
      | none => none
      | some (res, needRight) =>
        if needRight then
          match searchIndex fd q right with
          | none => none
          | some resR => some (res ++ resR)
        else some res
    else none

/-- The interior-cell loop of `search_index`: per cell compare the first
remaining column's display form with the query; on `Greater` or `Equal`
search the left child; on `Greater` break; on `Equal` push the cell's
rowid; when the last cell compares `Equal` or `Less` the caller must
additionally search the right-most page (the returned flag). -/
def searchLoop (fd : Nat → String) (q : String) :
    List (List SerialValue × ITree) → Option (List Nat × Bool)
  | [] => some ([], false)
  | (r, child) :: rest =>
    match decodeICell r with
    | none => none
    | some (cols, rid) =>
      match cols.head? with
      | none => none
      | some v0 =>
        match strCmp (SerialValue.display fd v0) q with
        | .gt =>
          match searchIndex fd q child with
          | none => none
          | some l => some (l, false)
        | .eq =>
          match searchIndex fd q child with
          | none => none
          | some l =>
            match rest with
            | [] => some (l ++ [rid], true)
            | _ :: _ =>
              match searchLoop fd q rest with
              | none => none
              | some (res, b) => some (l ++ rid :: res, b)
        | .lt =>
          match rest with
          | [] => some ([], true)
          | _ :: _ => searchLoop fd q rest

end

mutual

/-- All index entries of the tree in B-tree order: on an interior page
each cell's subtree precedes the cell's own record. -/
def ientries : ITree → List (List SerialValue)
  | .leaf cells => cells
  | .interior cells right => ientriesGo cells ++ ientries right

/-- Entries contributed by an interior page's cell list. -/
def ientriesGo : List (List SerialValue × ITree) → List (List SerialValue)
  | [] => []
  | (r, t) :: rest => ientries t ++ r :: ientriesGo rest

end

/-- The key of an index entry: its first column rendered as text. -/
def keyOf (fd : Nat → String) (r : List SerialValue) : String :=
  SerialValue.display fd (r.headD .null)

/-- The row-id of an index entry: its last column read `as_rowid`. -/
def rowidOf (r : List SerialValue) : Nat :=
  ((r.getLast?).bind SerialValue.asRowid).getD 0

/-- The row-ids of the entries whose key equals the query, in entry
order — the set the claim says `search_index` returns. -/
def specMatches (fd : Nat → String) (q : String) (t : ITree) : List Nat :=
  ((ientries t).filter fun r => keyOf fd r == q).map rowidOf

/-- Row-ids contributed by an interior cell list per the claim. -/
def cellsMatches (fd : Nat → String) (q : String)
    (cells : List (List SerialValue × ITree)) : List Nat :=
  cells.flatMap fun c =>
    specMatches fd q c.2 ++ (if keyOf fd c.1 == q then [rowidOf c.1] else [])

mutual

/-- Well-formedness of an index B-tree, stated in terms of the keys the
code actually compares: an interior page has at least one cell, each
cell bounds its left subtree's keys from above, and each cell's key
bounds its successor's key and subtree (hence transitively everything
after it) and, for the last cell, the right-most subtree from below. -/
def wfI (fd : Nat → String) : ITree → Bool
  | .leaf _ => true
  | .interior cells right =>
    !cells.isEmpty && wfICells fd cells right && wfI fd right

/-- The per-cell part of `wfI`. -/
def wfICells (fd : Nat → String) :
    List (List SerialValue × ITree) → ITree → Bool
  | [], _ => true
  | (r, t) :: rest, right =>
    wfI fd t &&
    ((ientries t).all fun e => strLeB (keyOf fd e) (keyOf fd r)) &&
    (match rest with
     | [] => (ientries right).all fun e => strLeB (keyOf fd r) (keyOf fd e)
     | (r', t') :: _ =>
       strLeB (keyOf fd r) (keyOf fd r') &&
       ((ientries t').all fun e => strLeB (keyOf fd r) (keyOf fd e))) &&
    wfICells fd rest right

end

/-- The single-column-index entry shape: exactly the indexed column and
a rowid column that `as_rowid` accepts. -/
def arity2 (r : List SerialValue) : Bool :=
  r.length == 2 && ((r.getLast?).bind SerialValue.asRowid).isSome

/-- Every entry of the tree has the single-column-index shape. -/
def iarityAll (t : ITree) : Bool := (ientries t).all arity2

/-! ## Table B-trees (`select_without_index` and `select_with_index`,
`src/main.rs` lines 179-297)

A `TTree` is the decoded page graph of a table B-tree: a leaf node
carries, in cell-pointer order, each leaf-table cell's row-id together
with its decoded record (the state just before `read_cell`'s rowid-alias
substitution); an interior node carries each interior-table cell's
separator row-id paired with its left-child subtree, plus the right-most
subtree. -/

inductive TTree where
  | leaf (cells : List (Nat × List SerialValue))
  | interior (cells : List (Nat × TTree)) (right : TTree)

/-- The tail of `read_cell` on a leaf-table cell: replace a leading NULL
with the row-id cast `as i64`; indexing `values[0]` panics on an empty
record (modelled `none`). -/
def substCell (rid : Nat) (r : List SerialValue) : Option (List SerialValue) :=
  match r with
  | [] => none
  | v :: vs => some ((if v = .null then .int64 (toI64 rid) else v) :: vs)

/-- Model of `read_cells` on a leaf-table page at the decoded level:
substitute each cell in cell-pointer order, stopping at the first
failure. -/
def readCellsModel : List (Nat × List SerialValue) → Option (List (List SerialValue))
  | [] => some []
  | (rid, r) :: rest =>
    match substCell rid r with
    | none => none
    | some v =>
      match readCellsModel rest with
      | none => none
      | some vs => some (v :: vs)

mutual

/-- Model of `select_without_index` (`src/main.rs` lines 179-217): a
leaf-table page yields all its decoded (substituted) cells; an
interior-table page recurses into each cell's left child in cell order
and then into the right-most pointer.  Index pages are a `bail!` under
this entry point; `TTree` only represents table pages. -/
def selectWithoutIndex : TTree → Option (List (List SerialValue))
  | .leaf cells => readCellsModel cells
  | .interior cells right =>
    match scanGo cells with
    | none => none
    | some res =>
      match selectWithoutIndex right with
      | none => none
      | some resR => some (res ++ resR)

/-- The interior-cell loop of `select_without_index`. -/
def scanGo : List (Nat × TTree) → Option (List (List SerialValue))
  | [] => some []
  | (_, t) :: rest =>
    match selectWithoutIndex t with
    | none => none
    | some r1 =>
      match scanGo rest with
      | none => none
      | some r2 => some (r1 ++ r2)

end

mutual

/-- All leaf cells of a table B-tree in B-tree order (row-id with its
unsubstituted record). -/
def tentries : TTree → List (Nat × List SerialValue)
  | .leaf cells => cells
  | .interior cells right => tentriesGo cells ++ tentries right

/-- Leaf cells under an interior page's cell list. -/
def tentriesGo : List (Nat × TTree) → List (Nat × List SerialValue)
  | [] => []
  | (_, t) :: rest => tentries t ++ tentriesGo rest

end

mutual

/-- Total number of cells on the tree's leaf-table pages. -/
def leafCellCount : TTree → Nat
  | .leaf cells => cells.length
  | .interior cells right => leafCellCountGo cells + leafCellCount right

/-- Leaf-cell count under an interior page's cell list. -/
def leafCellCountGo : List (Nat × TTree) → Nat
  | [] => 0
  | (_, t) :: rest => leafCellCount t + leafCellCountGo rest

end

/-- The rowid-alias substitution as a total function on a leaf cell
(used to state what the traversals return; on records the
well-formedness hypotheses admit it agrees with `substCell`). -/
def substOf (c : Nat × List SerialValue) : List SerialValue :=
  match c.2 with
  | [] => []
  | v :: vs => (if v = .null then .int64 (toI64 c.1) else v) :: vs

/-- Strict ascending chain check on a rowid list. -/
def chainLtB : List Nat → Bool
  | [] => true
  | [_] => true
  | a :: b :: rest => decide (a < b) && chainLtB (b :: rest)

mutual

/-- Well-formedness of a table B-tree: leaf cells strictly ascending by
row-id, row-ids in `u64` range, records non-empty (a table has at least
one column); an interior page has at least one cell, each separator
bounds its left subtree from above and everything after it strictly
from below. -/
def wfT : TTree → Bool
  | .leaf cells =>
    chainLtB (cells.map Prod.fst) &&
    cells.all fun c => !c.2.isEmpty && decide (c.1 < 2 ^ 64)
  | .interior cells right =>
    !cells.isEmpty && wfTCells cells right && wfT right

/-- The per-cell part of `wfT`. -/
def wfTCells : List (Nat × TTree) → TTree → Bool
  | [], _ => true
  | (k, t) :: rest, right =>
    wfT t && ((tentries t).all fun c => decide (c.1 ≤ k)) &&
    (match rest with
     | [] => (tentries right).all fun c => decide (k < c.1)
     | (k', t') :: _ =>
       decide (k < k') && ((tentries t').all fun c => decide (k < c.1))) &&
    wfTCells rest right

end

/-! ## Index-assisted lookup (`select_with_index`, lines 219-297) -/

/-- The interval-halving loop of Rust `slice::partition_point` (a
`binary_search_by` whose comparator never answers Equal): while
`left < right`, probe the middle and move one of the bounds.  The fuel
is the interval size at entry, which bounds the number of steps since
the interval shrinks at every step; out of fuel it returns `left`,
which is unreachable with that fuel. -/
def ppAux (p : Nat → Bool) (xs : List Nat) : Nat → Nat → Nat → Nat
  | 0, left, _ => left
  | fuel + 1, left, right =>
    if left < right then
      let mid := left + (right - left) / 2
      if p (xs.getD mid 0) then ppAux p xs fuel (mid + 1) right
      else ppAux p xs fuel left mid
    else left

/-- Model of `slice::partition_point`. -/
def partitionPoint (p : Nat → Bool) (xs : List Nat) : Nat :=
  ppAux p xs xs.length 0 xs.length

/-- The leaf-table arm of `select_with_index`: one shared iterator over
the page's substituted cells; for each requested id, skip cells whose
first column (`as_rowid`, `unreachable!` when not an integer) is below
the id and take the next cell — without checking that it matches — or
fail when the iterator is exhausted (`context("must have a value")`). -/
def advanceTo (id : Nat) : List (List SerialValue) →
    Option (List SerialValue × List (List SerialValue))
  | [] => none
  | r :: rs =>
    match r.head? with
    | none => none
    | some v =>
      match SerialValue.asRowid v with
      | none => none
      | some rid => if rid < id then advanceTo id rs else some (r, rs)

/-- Consume the requested ids in order against the shared cell
iterator. -/
def lookupRows (rows : List (List SerialValue)) :
    List Nat → Option (List (List SerialValue))
  | [] => some []
  | id :: ids =>
    match advanceTo id rows with
    | none => none
    | some (r, rest) =>
      match lookupRows rest ids with
      | none => none
      | some rs => some (r :: rs)

mutual

/-- Model of `select_with_index` (`src/main.rs` lines 219-297).  On an
interior page, the loop partitions the pending ids at each separator,
descends left with the ids at or below it, and breaks once no ids
remain; the source visits the right-most page inside the loop body at
the last cell with the then-remaining ids, returned here by `selectLoop`
as the leftover id list and visited afterwards, which composes to the
same result.  An interior page with no cells never runs the loop and
returns no rows. -/
def selectWithIndex (ids : List Nat) : TTree → Option (List (List SerialValue))
  | .leaf cells =>
    match readCellsModel cells with
    | none => none
    | some rows => lookupRows rows ids
  | .interior cells right =>
    match cells with
    | [] => some []
    | _ :: _ =>
      match selectLoop ids cells with
      | none => none
      | some (res, remaining) =>
        if remaining.isEmpty then some res
        else
          match selectWithIndex remaining right with
          | none => none
          | some resR => some (res ++ resR)

/-- The interior-cell loop of `select_with_index`: partition the pending
ids at the cell's separator row-id, recurse left with the lower part if
non-empty, break when nothing remains. -/
def selectLoop (ids : List Nat) :
    List (Nat × TTree) → Option (List (List SerialValue) × List Nat)
  | [] => some ([], ids)
  | (k, t) :: rest =>
    match (if (ids.take (partitionPoint (fun id => decide (id ≤ k)) ids)).isEmpty
           then some []
           else selectWithIndex
             (ids.take (partitionPoint (fun id => decide (id ≤ k)) ids)) t) with
    | none => none
    | some res1 =>
      if (ids.drop (partitionPoint (fun id => decide (id ≤ k)) ids)).isEmpty then
        some (res1, [])
      else
        match rest with
        | [] => some (res1, ids.drop (partitionPoint (fun id => decide (id ≤ k)) ids))
        | _ :: _ =>
          match selectLoop (ids.drop (partitionPoint (fun id => decide (id ≤ k)) ids))
              rest with
          | none => none
          | some (res2, rem) => some (res1 ++ res2, rem)

end

/-- The row a given row-id denotes among a list of leaf cells: the
substituted record of the first cell carrying that row-id. -/
def rowOfEntries (es : List (Nat × List SerialValue)) (id : Nat) : List SerialValue :=
  match es.find? fun c => c.1 == id with
  | some c => substOf c
  | none => []

/-- The row a given row-id denotes in a table B-tree. -/
def rowOfId (t : TTree) (id : Nat) : List SerialValue :=
  rowOfEntries (tentries t) id

/-- The rowid-alias record shape assumed by the lookup: every leaf
record stores NULL in its first column, so the substituted first column
is the row-id. -/
def aliasOkB (c : Nat × List SerialValue) : Bool :=
  match c.2 with
  | .null :: _ => true
  | _ => false

/-- Every leaf cell of the tree has the rowid-alias shape. -/
def taliasAll (t : TTree) : Bool := (tentries t).all aliasOkB

/-! ## The SQLite varint encoding (claim-side)

The repository contains no encoder; the claims quantify over "the
minimal SQLite varint encoding", defined by the format rules quoted in
the specification (section 4.1): up to eight leading bytes holding seven
value bits each with the high bit set on all but the last, or, for
values of 57 bits or more, eight seven-bit bytes all with the high bit
set followed by a ninth byte holding the low eight value bits. -/

/-- Big-endian base-128 digits of `v` (most significant first), built
with enough structural fuel for any `u64` value. -/
def chunksAux : Nat → Nat → List Nat → List Nat
  | 0, _, acc => acc
  | fuel + 1, v, acc =>
    if v < 128 then v :: acc else chunksAux fuel (v / 128) (v % 128 :: acc)

/-- Minimal big-endian base-128 digit list of `v`. -/
def sevenChunks (v : Nat) : List Nat := chunksAux 10 v []

/-- The minimal SQLite varint encoding of `v < 2 ^ 64`. -/
def encodeVarint (v : Nat) : List Nat :=
  if v < 2 ^ 56 then
    let cs := sevenChunks v
    (cs.dropLast.map (· + 128)) ++ [cs.getLastD 0]
  else
    let cs := sevenChunks (v / 256)
    ((List.replicate (8 - cs.length) 0 ++ cs).map (· + 128)) ++ [v % 256]

example : readVarint ⟨[120], 0⟩ = some (120, ⟨[120], 1⟩) := by decide
example : readVarint ⟨[240, 62], 0⟩ = some (14398, ⟨[240, 62], 2⟩) := by decide
example : readVarint ⟨[129, 129, 54], 0⟩ = some (16566, ⟨[129, 129, 54], 3⟩) := by decide
example : encodeVarint 14398 = [240, 62] := by decide
example : encodeVarint (2 ^ 56) = [128, 192, 128, 128, 128, 128, 128, 128, 0] := by decide
example : readVarint ⟨encodeVarint (2 ^ 56), 0⟩ =
    some (2 ^ 55, ⟨encodeVarint (2 ^ 56), 9⟩) := by decide

section TmpChecks

example :
    searchIndex (fun _ => "") "a" (.leaf [[.text "a", .int8 5, .int8 7]]) = some [5] := by
  decide

example :
    specMatches (fun _ => "") "a" (.leaf [[.text "a", .int8 5, .int8 7]]) = [7] := by
  decide

example :
    searchIndex (fun _ => "") "b"
      (.interior [([.text "b", .int8 2], .leaf [[.text "a", .int8 1]])]
        (.leaf [[.text "c", .int8 3]])) = some [2] := by decide

example :
    wfI (fun _ => "")
      (.interior [([.text "b", .int8 2], .leaf [[.text "a", .int8 1]])]
        (.leaf [[.text "c", .int8 3]])) = true := by decide

example :
    selectWithIndex [2] (.leaf [(1, [.null]), (3, [.null])]) =
      some [[.int64 3]] := by decide

example : wfT (.leaf [(1, [.null]), (3, [.null])]) = true := by decide

example :
    selectWithIndex [1, 3]
      (.interior [(2, .leaf [(1, [.null, .text "x"]), (2, [.null, .text "y"])])]
        (.leaf [(3, [.null, .text "z"])])) =
      some [[.int64 1, .text "x"], [.int64 3, .text "z"]] := by decide

example :
    selectWithoutIndex
      (.interior [(2, .leaf [(1, [.null, .text "x"]), (2, [.null, .text "y"])])]
        (.leaf [(3, [.null, .text "z"])])) =
      some [[.int64 1, .text "x"], [.int64 2, .text "y"], [.int64 3, .text "z"]] := by decide

set_option maxRecDepth 4000 in
example :
    dbFileNew (List.replicate 16 0 ++ [2, 0] ++ List.replicate 494 0) = .panic := by decide

example :
    schemaObjectFrom
      ([20, 1, 6, 23, 15, 15, 1, 13] ++
        [116, 97, 98, 108, 101, 116, 116, 2]) =
      .ok ⟨.table, "t", "t", some 2, ""⟩ := by decide

end TmpChecks

/-! ## Claim C5 (code bug): the varint decoder mishandles nine-byte
varints.

The doc comment on `read_varint` states that the lower seven bits of
each of the FIRST EIGHT bytes and all eight bits of the NINTH byte are
used; the loop `for _ in 0..=8` instead runs nine seven-bit iterations
and then reads a TENTH byte for the eight-bit step.  Consequently the
minimal nine-byte encoding of any value of 57 or more bits decodes
wrongly (its ninth byte is consumed by a seven-bit iteration), a
complete nine-byte varint whose final byte has its high bit set fails
instead of succeeding, and ten bytes can be consumed. -/

/-- Claim C5.  code_bug evidence: decoding the minimal SQLite encoding
of `2 ^ 56` returns `2 ^ 55` after consuming all nine bytes; a complete
nine-byte varint ending in a high byte fails outright; and with a tenth
byte available the decoder consumes it.  Each contradicts the claim
(and the decoder's own documentation). -/
theorem readVarint_ninth_byte_bug :
    (readVarint ⟨encodeVarint (2 ^ 56), 0⟩ =
        some (2 ^ 55, ⟨encodeVarint (2 ^ 56), 9⟩) ∧ (2 ^ 55 : Nat) ≠ 2 ^ 56) ∧
    readVarint ⟨List.replicate 9 128, 0⟩ = none ∧
    readVarint ⟨List.replicate 9 128 ++ [1], 0⟩ =
      some (1, ⟨List.replicate 9 128 ++ [1], 10⟩) := by
  decide

/-! ## Claim C4 (corrected): the `page_size` accessor applies no
sentinel.

The generated accessor is `u16::from_be_bytes(self.page_size)` and
nothing more: a stored value of 1 is returned as 1 (the `u16` return
type could not even hold 65536). -/

/-- Claim C4 counterexample: on a 100-byte header whose page-size field
holds big-endian 1, the accessor returns 1, not 65536. -/
theorem pageSize_sentinel_counterexample :
    ∃ hdr, DBHeader.fromBytes (List.replicate 16 0 ++ [0, 1] ++ List.replicate 82 0) =
        some hdr ∧ DBHeader.pageSize hdr = 1 ∧ DBHeader.pageSize hdr ≠ 65536 := by
  refine ⟨_, rfl, by decide, by decide⟩

/-- Claim C4 as amended: the accessor decodes the two big-endian bytes
of the page-size field and returns that raw 16-bit value unchanged; in
particular the sentinel value 1 is returned as 1. -/
theorem pageSize_raw_be (data : List Nat) (h : data.length = 100) :
    ∃ hdr, DBHeader.fromBytes data = some hdr ∧
      DBHeader.pageSize hdr = (data.getD 16 0 % 256) * 256 + data.getD 17 0 % 256 ∧
      (data.getD 16 0 % 256 = 0 → data.getD 17 0 % 256 = 1 →
        DBHeader.pageSize hdr = 1) := by
  refine ⟨⟨data.take 16, (data.getD 16 0 % 256, data.getD 17 0 % 256), data.drop 18⟩,
    ?_, rfl, ?_⟩
  · simp [DBHeader.fromBytes, DBHeader.SIZE, h]
  · intro h16 h17
    simp only [DBHeader.pageSize, h16, h17]

/-- Witness for `pageSize_raw_be` at a concrete header. -/
theorem pageSize_raw_be_witness :
    (List.replicate 16 0 ++ [19, 32] ++ List.replicate 82 0).length = 100 ∧
    ∃ hdr, DBHeader.fromBytes (List.replicate 16 0 ++ [19, 32] ++ List.replicate 82 0) =
        some hdr ∧
      DBHeader.pageSize hdr =
        ((List.replicate 16 0 ++ [19, 32] ++ List.replicate 82 0).getD 16 0 % 256) * 256 +
          (List.replicate 16 0 ++ [19, 32] ++ List.replicate 82 0).getD 17 0 % 256 ∧
      ((List.replicate 16 0 ++ [19, 32] ++ List.replicate 82 0).getD 16 0 % 256 = 0 →
        (List.replicate 16 0 ++ [19, 32] ++ List.replicate 82 0).getD 17 0 % 256 = 1 →
        DBHeader.pageSize hdr = 1) :=
  ⟨by decide, pageSize_raw_be _ (by decide)⟩

/-! ## Claim C8 (corrected): `as_rowid` / `as_usize` do not reject
negative integers.

The Rust pattern arms cast `*i as u64` / `*i as usize`, which
sign-extends: a negative content yields `some` of its two's-complement
reinterpretation, not `none`.  `Zero`/`One` (serial types 8 and 9) and
the non-integer variants yield `none`. -/

/-- The "integer kinds" of the claim: the contents of the six
sized-integer variants (claim-side definition). -/
def intKindContent : SerialValue → Option Int
  | .int8 i => some i
  | .int16 i => some i
  | .int24 i => some i
  | .int32 i => some i
  | .int48 i => some i
  | .int64 i => some i
  | _ => none

/-- Claim C8 counterexample: a negative integer is not rejected —
`as_rowid(Int8(-1))` is `some (2^64 - 1)`, not `none` (and `as_usize`
likewise). -/
theorem asRowid_negative_counterexample :
    SerialValue.asRowid (.int8 (-1)) = some (2 ^ 64 - 1) ∧
    SerialValue.asRowid (.int8 (-1)) ≠ none ∧
    SerialValue.asUsize (.int8 (-1)) = some (2 ^ 64 - 1) := by
  refine ⟨?_, by simp [SerialValue.asRowid, toU64], ?_⟩ <;> decide

/-- Claim C8 as amended: for the six sized-integer kinds the accessors
return the content reinterpreted by two's complement modulo `2 ^ 64`
(hence the content itself when it is non-negative and in range), and
`none` for every other kind (including the literal `Zero`/`One`
values); negative contents are NOT rejected. -/
theorem asRowid_asUsize_cast (v : SerialValue) :
    SerialValue.asRowid v = (intKindContent v).map toU64 ∧
    SerialValue.asUsize v = (intKindContent v).map toU64 := by
  cases v <;> simp [SerialValue.asRowid, SerialValue.asUsize, intKindContent]

/-! ## Claim C9 (corrected): opening the database can panic.

`DBFile::new` wraps both `DBHeader::from_bytes` and `BTreePage::new` in
`.expect(..)`: a malformed first page panics instead of returning the
inner error.  (The header `.expect` is dead: the buffer passed to
`from_bytes` always has exactly 100 bytes.) -/

theorem getD_take {l : List Nat} {i n : Nat} (h : i < n) :
    (l.take n).getD i 0 = l.getD i 0 := by
  simp only [List.getD, List.get?_take h]

set_option maxRecDepth 4000 in
/-- Claim C9 counterexample: a 512-byte file whose header declares page
size 512 and whose byte 100 (the page-type byte) is 0 makes
`DBFile::new` panic in `.expect("should construct BTree page")` — an
outcome that is neither a returned success nor a returned error. -/
theorem dbFileNew_panic_counterexample :
    dbFileNew (List.replicate 16 0 ++ [2, 0] ++ List.replicate 494 0) = .panic ∧
    (Res.panic ≠ (Res.err : Res (DBHeaderM × BTreePageM))) ∧
    ∀ v, (Res.panic : Res (DBHeaderM × BTreePageM)) ≠ .ok v := by
  refine ⟨by decide, by decide, fun v h => by cases h⟩

/-- Claim C9 as amended: opening the database returns a success or an
error — a file shorter than 100 bytes, or shorter than the page size its
header declares, is a returned error — except that it panics exactly
when the whole first page is available but its B-tree page construction
fails (for example on an invalid page-type byte); no other outcome
exists.  The header-parsing `.expect` never panics. -/
theorem dbFileNew_panic_characterisation (file : List Nat) :
    (dbFileNew file = .panic ↔
      100 ≤ file.length ∧
      (file.getD 16 0 % 256) * 256 + file.getD 17 0 % 256 ≤ file.length ∧
      btreePageNew (file.take ((file.getD 16 0 % 256) * 256 + file.getD 17 0 % 256)) true
        = none) ∧
    (file.length < 100 → dbFileNew file = .err) := by
  by_cases hlen : file.length < 100
  · constructor
    · simp only [dbFileNew, if_pos hlen]
      constructor
      · intro h; cases h
      · intro h; omega
    · intro _
      simp only [dbFileNew, if_pos hlen]
  · push_neg at hlen
    have hlen100 : (file.take 100).length = 100 := by
      simp only [List.length_take]; omega
    have hps : DBHeader.fromBytes (file.take 100) =
        some ⟨(file.take 100).take 16,
          (file.getD 16 0 % 256, file.getD 17 0 % 256), (file.take 100).drop 18⟩ := by
      simp only [DBHeader.fromBytes, DBHeader.SIZE]
      rw [if_pos hlen100, getD_take (by omega), getD_take (by omega)]
    refine ⟨?_, fun h => absurd h (by omega)⟩
    simp only [dbFileNew, if_neg (by omega : ¬file.length < 100), hps]
    have hpsz : DBHeader.pageSize
        ⟨(file.take 100).take 16, (file.getD 16 0 % 256, file.getD 17 0 % 256),
          (file.take 100).drop 18⟩ =
        (file.getD 16 0 % 256) * 256 + file.getD 17 0 % 256 := rfl
    rw [hpsz]
    by_cases hlp : file.length < (file.getD 16 0 % 256) * 256 + file.getD 17 0 % 256
    · rw [if_pos hlp]
      constructor
      · intro h; cases h
      · intro h; omega
    · rw [if_neg hlp]
      cases hpg : btreePageNew
          (file.take ((file.getD 16 0 % 256) * 256 + file.getD 17 0 % 256)) true with
      | none =>
        exact ⟨fun _ => ⟨hlen, by omega, rfl⟩, fun _ => rfl⟩
      | some page =>
        exact ⟨fun h => Res.noConfusion h, fun h => Option.noConfusion h.2.2⟩

/-! ## Claim C10 (confirmed): the schema decoder accepts a root page
only from serial type NULL or serial type 1. -/

theorem read_null_iff_int8 (t : Nat) (c : Cursor) (v : SerialValue) (c' : Cursor)
    (h : SerialValue.read t c = some (v, c')) :
    (v = .null ↔ t = 0) ∧ (∀ i, v = .int8 i → t = 1) ∧ (t = 1 → ∃ i, v = .int8 i) := by
  rcases t with _|_|_|_|_|_|_|_|_|_|_|_|n
  all_goals simp only [SerialValue.read] at h
  · obtain ⟨-, rfl⟩ := h
    exact ⟨by simp, by simp, by simp⟩
  · cases hb : rdBE 1 c with
    | none => rw [hb] at h; cases h
    | some p =>
      rw [hb] at h
      simp only [Option.some.injEq, Prod.mk.injEq] at h
      obtain ⟨hv, -⟩ := h
      subst hv
      exact ⟨by simp, fun i _ => rfl, fun _ => ⟨_, rfl⟩⟩
  · cases hb : rdBE 2 c with
    | none => rw [hb] at h; cases h
    | some p =>
      rw [hb] at h
      simp only [Option.some.injEq, Prod.mk.injEq] at h
      obtain ⟨hv, -⟩ := h
      subst hv
      exact ⟨by simp, by simp, by simp⟩
  · cases hb : rdBE 3 c with
    | none => rw [hb] at h; cases h
    | some p =>
      rw [hb] at h
      simp only [Option.some.injEq, Prod.mk.injEq] at h
      obtain ⟨hv, -⟩ := h
      subst hv
      exact ⟨by simp, by simp, by simp⟩
  · cases hb : rdBE 4 c with
    | none => rw [hb] at h; cases h
    | some p =>
      rw [hb] at h
      simp only [Option.some.injEq, Prod.mk.injEq] at h
      obtain ⟨hv, -⟩ := h
      subst hv
      exact ⟨by simp, by simp, by simp⟩
  · cases hb : rdBE 6 c with
    | none => rw [hb] at h; cases h
    | some p =>
      rw [hb] at h
      simp only [Option.some.injEq, Prod.mk.injEq] at h
      obtain ⟨hv, -⟩ := h
      subst hv
      exact ⟨by simp, by simp, by simp⟩
  · cases hb : rdBE 8 c with
    | none => rw [hb] at h; cases h
    | some p =>
      rw [hb] at h
      simp only [Option.some.injEq, Prod.mk.injEq] at h
      obtain ⟨hv, -⟩ := h
      subst hv
      exact ⟨by simp, by simp, by simp⟩
  · cases hb : rdBE 8 c with
    | none => rw [hb] at h; cases h
    | some p =>
      rw [hb] at h
      simp only [Option.some.injEq, Prod.mk.injEq] at h
      obtain ⟨hv, -⟩ := h
      subst hv
      exact ⟨by simp, by simp, by simp⟩
  · obtain ⟨-, rfl⟩ := h
    exact ⟨by simp, by simp, by simp⟩
  · obtain ⟨-, rfl⟩ := h
    exact ⟨by simp, by simp, by simp⟩
  · cases h
  · cases h
  · split at h
    · cases hb : rdBytes ((n + 12 - 12) / 2) c with
      | none => rw [hb] at h; cases h
      | some p =>
        rw [hb] at h
        simp only [Option.some.injEq, Prod.mk.injEq] at h
        obtain ⟨hv, -⟩ := h
        subst hv
        exact ⟨by simp, by simp, by omega⟩
    · cases hb : rdBytes ((n + 12 - 13) / 2) c with
      | none => rw [hb] at h; cases h
      | some p =>
        obtain ⟨bs, c₁⟩ := p
        rw [hb] at h
        dsimp only at h
        cases hsu : stringFromUtf8 bs with
        | none => rw [hsu] at h; cases h
        | some s =>
          rw [hsu] at h
          simp only [Option.some.injEq, Prod.mk.injEq] at h
          obtain ⟨hv, -⟩ := h
          subst hv
          exact ⟨by simp, by simp, by omega⟩

/-- Claim C10.  Decoding an `sqlite_schema` record whose first three
columns are well-formed: the outcome is determined by the decoded
`rootpage` value — accepted as absent for a NULL, accepted as a page
number for an `Int8` (serial type 1, the one-byte integer), and
rejected with an error for every other decoded kind; and a decoded
NULL arises exactly from serial type 0, a decoded `Int8` exactly from
serial type 1, so every wider integer serial type (2-6, and the
two-byte-plus integers they denote) is rejected. -/
theorem schemaObjectFrom_rootpage (data : List Nat) (pl ri hs : Nat)
    (c₁ c₂ c₃ c₄ c₅ c₆ c₇ c₈ c₉ : Cursor) (t0 t1 t2 t3 t4 : Nat)
    (s0 s1 s2 s4 : String) (oty : ObjectType) (v3 : SerialValue)
    (H1 : readVarint ⟨data, 0⟩ = some (pl, c₁))
    (H2 : readVarint c₁ = some (ri, c₂))
    (H3 : readVarint c₂ = some (hs, c₃))
    (H4 : readSerialTypes (c₂.pos + hs) c₃ = some ([t0, t1, t2, t3, t4], c₄))
    (H5 : SerialValue.read t0 c₄ = some (.text s0, c₅))
    (H6 : ObjectType.fromString s0 = some oty)
    (H7 : SerialValue.read t1 c₅ = some (.text s1, c₆))
    (H8 : SerialValue.read t2 c₆ = some (.text s2, c₇))
    (H9 : SerialValue.read t3 c₇ = some (v3, c₈))
    (H10 : SerialValue.read t4 c₈ = some (.text s4, c₉)) :
    schemaObjectFrom data =
      (match v3 with
       | .null => .ok ⟨oty, s1, s2, none, s4⟩
       | .int8 i => .ok ⟨oty, s1, s2, some (toU64 i), s4⟩
       | _ => .err) ∧
    (v3 = .null ↔ t3 = 0) ∧ (∀ i, v3 = .int8 i → t3 = 1) ∧
    (t3 = 1 → ∃ i, v3 = .int8 i) := by
  refine ⟨?_, read_null_iff_int8 t3 c₇ v3 c₈ H9⟩
  simp only [schemaObjectFrom, H1, H2, H3, H4, H5, H6, H7, H8, H9, H10]
  cases v3 <;> rfl

/-- Witness for `schemaObjectFrom_rootpage` on a concrete schema record
(`type "table", name "t", tbl_name "t", rootpage Int8 2, sql ""`). -/
theorem schemaObjectFrom_rootpage_witness :
    schemaObjectFrom
        [20, 1, 6, 23, 15, 15, 1, 13, 116, 97, 98, 108, 101, 116, 116, 2] =
      .ok ⟨.table, "t", "t", some (toU64 2), ""⟩ ∧
    ((SerialValue.int8 2 = .null ↔ (1 : Nat) = 0) ∧
      (∀ i, SerialValue.int8 2 = .int8 i → (1 : Nat) = 1) ∧
      ((1 : Nat) = 1 → ∃ i, SerialValue.int8 2 = .int8 i)) := by
  have h := schemaObjectFrom_rootpage
    [20, 1, 6, 23, 15, 15, 1, 13, 116, 97, 98, 108, 101, 116, 116, 2]
    20 1 6
    ⟨[20, 1, 6, 23, 15, 15, 1, 13, 116, 97, 98, 108, 101, 116, 116, 2], 1⟩
    ⟨[20, 1, 6, 23, 15, 15, 1, 13, 116, 97, 98, 108, 101, 116, 116, 2], 2⟩
    ⟨[20, 1, 6, 23, 15, 15, 1, 13, 116, 97, 98, 108, 101, 116, 116, 2], 3⟩
    ⟨[20, 1, 6, 23, 15, 15, 1, 13, 116, 97, 98, 108, 101, 116, 116, 2], 8⟩
    ⟨[20, 1, 6, 23, 15, 15, 1, 13, 116, 97, 98, 108, 101, 116, 116, 2], 13⟩
    ⟨[20, 1, 6, 23, 15, 15, 1, 13, 116, 97, 98, 108, 101, 116, 116, 2], 14⟩
    ⟨[20, 1, 6, 23, 15, 15, 1, 13, 116, 97, 98, 108, 101, 116, 116, 2], 15⟩
    ⟨[20, 1, 6, 23, 15, 15, 1, 13, 116, 97, 98, 108, 101, 116, 116, 2], 16⟩
    ⟨[20, 1, 6, 23, 15, 15, 1, 13, 116, 97, 98, 108, 101, 116, 116, 2], 16⟩
    23 15 15 1 13 "table" "t" "t" "" .table (.int8 2)
    (by decide) (by decide) (by decide) (by decide) (by decide) (by decide)
    (by decide) (by decide) (by decide) (by decide)
  exact ⟨h.1, h.2⟩

/-! ## Claim C7 (confirmed): leaf-table cell decoding and the
rowid-alias substitution. -/

/-- Claim C7.  Reading a leaf-table cell decodes the payload-size
varint (whose value `pl` is discarded), then the row-id varint, then
the record; the returned row is the record with its first column
replaced by the row-id cast to a 64-bit integer exactly when that first
column decoded to NULL, all remaining columns returned as decoded. -/
theorem readCell_rowid_subst (data : List Nat) (pl rid : Nat) (c₁ c₂ c₃ : Cursor)
    (v : SerialValue) (vs : List SerialValue)
    (H1 : readVarint ⟨data, 0⟩ = some (pl, c₁))
    (H2 : readVarint c₁ = some (rid, c₂))
    (H3 : readPayload c₂ = some (v :: vs, c₃)) :
    readCell .leafTable ⟨data, 0⟩ =
      .ok ((if v = .null then .int64 (toI64 rid) else v) :: vs) := by
  simp only [readCell, H1, H2, H3]

/-- Witness for `readCell_rowid_subst`: the cell
`[payload-size 3, row-id 5, record header [size 2, type NULL]]` decodes
to the single column NULL, which is replaced by the row-id 5. -/
theorem readCell_rowid_subst_witness :
    readCell .leafTable ⟨[3, 5, 2, 0], 0⟩ =
      .ok [if SerialValue.null = .null then .int64 (toI64 5) else .null] := by
  exact readCell_rowid_subst [3, 5, 2, 0] 3 5
    ⟨[3, 5, 2, 0], 1⟩ ⟨[3, 5, 2, 0], 2⟩ ⟨[3, 5, 2, 0], 4⟩ .null []
    (by decide) (by decide) (by decide)

/-! ## Claim C6 (confirmed): the serial-type table.

`readValueSpec` is written from the claim's words (the serial-type
table of the specification); the theorem proves the source decoder
equal to it on every serial type and byte source. -/

/-- Byte width of the signed-integer serial types 1-6 per the claim:
1/2/3/4/6/8 bytes. -/
def intByteWidth (t : Nat) : Nat := [1, 2, 3, 4, 6, 8].getD (t - 1) 0

/-- The integer value constructor for serial types 1-6. -/
def intValueOf (t : Nat) (i : Int) : SerialValue :=
  match t with
  | 1 => .int8 i
  | 2 => .int16 i
  | 3 => .int24 i
  | 4 => .int32 i
  | 5 => .int48 i
  | _ => .int64 i

/-- The claim's serial-type table, transcribed: NULL for 0; big-endian
signed integers of 1/2/3/4/6/8 bytes for 1-6; an eight-byte float for
7; literal 0 for 8; literal 1 for 9; the reserved codes 10 and 11 fail;
even types of 12 and above are blobs of `(t - 12) / 2` bytes; odd types
of 13 and above are UTF-8 text of `(t - 13) / 2` bytes, failing on
invalid UTF-8. -/
def readValueSpec (t : Nat) (c : Cursor) : Option (SerialValue × Cursor) :=
  if t = 0 then some (.null, c)
  else if 1 ≤ t ∧ t ≤ 6 then
    match rdBE (intByteWidth t) c with
    | none => none
    | some (v, c') => some (intValueOf t (toSigned (8 * intByteWidth t) v), c')
  else if t = 7 then
    match rdBE 8 c with
    | none => none
    | some (v, c') => some (.float64 v, c')
  else if t = 8 then some (.zero, c)
  else if t = 9 then some (.one, c)
  else if t = 10 ∨ t = 11 then none
  else if 12 ≤ t ∧ t % 2 = 0 then
    match rdBytes ((t - 12) / 2) c with
    | none => none
    | some (bs, c') => some (.blob bs, c')
  else if 13 ≤ t ∧ t % 2 = 1 then
    match rdBytes ((t - 13) / 2) c with
    | none => none
    | some (bs, c') =>
      match stringFromUtf8 bs with
      | none => none
      | some s => some (.text s, c')
  else none

/-- Claim C6.  The source decoder `SerialValue::read` agrees with the
claim's serial-type table on every serial type and every byte source. -/
theorem read_eq_readValueSpec (t : Nat) (c : Cursor) :
    SerialValue.read t c = readValueSpec t c := by
  rcases t with _|_|_|_|_|_|_|_|_|_|_|_|n
  · rfl
  · rfl
  · rfl
  · rfl
  · rfl
  · rfl
  · rfl
  · rfl
  · rfl
  · rfl
  · rfl
  · rfl
  · have h0 : ¬(n + 12 = 0) := by omega
    have h16 : ¬(1 ≤ n + 12 ∧ n + 12 ≤ 6) := by omega
    have h7 : ¬(n + 12 = 7) := by omega
    have h8 : ¬(n + 12 = 8) := by omega
    have h9 : ¬(n + 12 = 9) := by omega
    have h1011 : ¬(n + 12 = 10 ∨ n + 12 = 11) := by omega
    simp only [SerialValue.read, readValueSpec, if_neg h0, if_neg h16, if_neg h7,
      if_neg h8, if_neg h9, if_neg h1011]
    by_cases hpar : (n + 12) % 2 = 0
    · rw [if_pos hpar, if_pos ⟨by omega, hpar⟩]
    · have hodd : (n + 12) % 2 = 1 := by omega
      rw [if_neg hpar, if_neg (fun hc => hpar hc.2), if_pos ⟨by omega, hodd⟩]

/-! ## Claim C3 (confirmed): the full table scan. -/

theorem substCell_eq_substOf (rid : Nat) (r : List SerialValue) (h : r ≠ []) :
    substCell rid r = some (substOf (rid, r)) := by
  cases r with
  | nil => exact absurd rfl h
  | cons v vs => rfl

theorem readCellsModel_spec (cells : List (Nat × List SerialValue))
    (h : ∀ c ∈ cells, c.2 ≠ []) :
    readCellsModel cells = some (cells.map substOf) := by
  induction cells with
  | nil => rfl
  | cons c rest ih =>
    obtain ⟨rid, r⟩ := c
    simp only [readCellsModel]
    rw [substCell_eq_substOf rid r (h (rid, r) (by simp)),
      ih fun d hd => h d (by simp [hd])]
    rfl

theorem wfT_leaf_nonempty {cells : List (Nat × List SerialValue)}
    (h : wfT (.leaf cells) = true) : ∀ c ∈ cells, c.2 ≠ [] := by
  intro c hc
  simp only [wfT, Bool.and_eq_true, List.all_eq_true] at h
  have := h.2 c hc
  simp only [Bool.and_eq_true, Bool.not_eq_true'] at this
  exact fun he => by simp [he] at this

theorem wfT_interior_parts {cells : List (Nat × TTree)} {right : TTree}
    (h : wfT (.interior cells right) = true) :
    cells ≠ [] ∧ wfTCells cells right = true ∧ wfT right = true := by
  simp only [wfT, Bool.and_eq_true, Bool.not_eq_true'] at h
  obtain ⟨⟨h1, h2⟩, h3⟩ := h
  refine ⟨?_, h2, h3⟩
  cases cells with
  | nil => simp at h1
  | cons c rest => exact List.cons_ne_nil c rest

theorem wfTCells_cons_parts {k : Nat} {t : TTree} {rest : List (Nat × TTree)}
    {right : TTree} (h : wfTCells ((k, t) :: rest) right = true) :
    wfT t = true ∧ (∀ e ∈ tentries t, e.1 ≤ k) ∧
    (match rest with
     | [] => ∀ e ∈ tentries right, k < e.1
     | (k', t') :: _ => k < k' ∧ ∀ e ∈ tentries t', k < e.1) ∧
    wfTCells rest right = true := by
  simp only [wfTCells, Bool.and_eq_true, List.all_eq_true, decide_eq_true_eq] at h
  obtain ⟨⟨⟨h1, h2⟩, h3⟩, h4⟩ := h
  refine ⟨h1, h2, ?_, h4⟩
  cases rest with
  | nil =>
    dsimp only at h3
    simp only [List.all_eq_true, decide_eq_true_eq] at h3
    exact h3
  | cons c rest' =>
    obtain ⟨k', t'⟩ := c
    dsimp only at h3
    simp only [Bool.and_eq_true, List.all_eq_true, decide_eq_true_eq] at h3
    exact ⟨h3.1, h3.2⟩

theorem wfTCells_above :
    ∀ (rest : List (Nat × TTree)) (right : TTree) (k : Nat) (t : TTree),
      wfTCells ((k, t) :: rest) right = true →
      ∀ e ∈ tentriesGo rest ++ tentries right, k < e.1 := by
  intro rest
  induction rest with
  | nil =>
    intro right k t h e he
    obtain ⟨-, -, h3, -⟩ := wfTCells_cons_parts h
    simp only [tentriesGo, List.nil_append] at he
    exact h3 e he
  | cons c rest' ih =>
    intro right k t h e he
    obtain ⟨k', t'⟩ := c
    obtain ⟨-, -, h3, h4⟩ := wfTCells_cons_parts h
    obtain ⟨hk, ht'⟩ := h3
    simp only [tentriesGo, List.append_assoc, List.mem_append] at he
    rcases he with he | he
    · exact ht' e he
    · have := ih right k' t' h4 e (by simpa [List.mem_append] using he)
      omega

mutual

theorem selectWithoutIndex_eq :
    ∀ t : TTree, wfT t = true →
      selectWithoutIndex t = some ((tentries t).map substOf)
  | .leaf cells, hwf => by
    simpa only [selectWithoutIndex, tentries] using
      readCellsModel_spec cells (wfT_leaf_nonempty hwf)
  | .interior cells right, hwf => by
    obtain ⟨-, hc, hr⟩ := wfT_interior_parts hwf
    simp only [selectWithoutIndex, scanGo_eq cells right hc,
      selectWithoutIndex_eq right hr, tentries, List.map_append]

theorem scanGo_eq :
    ∀ (cells : List (Nat × TTree)) (right : TTree), wfTCells cells right = true →
      scanGo cells = some ((tentriesGo cells).map substOf)
  | [], _, _ => rfl
  | (k, t) :: rest, right, h => by
    obtain ⟨h1, -, -, h4⟩ := wfTCells_cons_parts h
    simp only [scanGo, selectWithoutIndex_eq t h1, scanGo_eq rest right h4,
      tentriesGo, List.map_append]

end

theorem chainLtB_iff : ∀ l : List Nat, chainLtB l = true ↔ List.Chain' (· < ·) l
  | [] => by simp [chainLtB]
  | [a] => by simp [chainLtB]
  | a :: b :: rest => by
    simp only [chainLtB, Bool.and_eq_true, decide_eq_true_eq,
      List.chain'_cons, chainLtB_iff (b :: rest)]

mutual

theorem wfT_chain : ∀ t : TTree, wfT t = true →
    List.Chain' (· < ·) ((tentries t).map Prod.fst)
  | .leaf cells, hwf => by
    simp only [wfT, Bool.and_eq_true] at hwf
    exact (chainLtB_iff _).mp hwf.1
  | .interior cells right, hwf => by
    obtain ⟨-, hc, hr⟩ := wfT_interior_parts hwf
    simpa only [tentries] using wfTCells_chain cells right hc hr
termination_by t => sizeOf t

theorem wfTCells_chain : ∀ (cells : List (Nat × TTree)) (right : TTree),
    wfTCells cells right = true → wfT right = true →
    List.Chain' (· < ·) ((tentriesGo cells ++ tentries right).map Prod.fst)
  | [], right, _, hr => by
    simpa only [tentriesGo, List.nil_append] using wfT_chain right hr
  | (k, t) :: rest, right, h, hr => by
    obtain ⟨h1, h2, -, h4⟩ := wfTCells_cons_parts h
    have habove := wfTCells_above rest right k t h
    have hl : List.Chain' (· < ·) ((tentries t).map Prod.fst) := wfT_chain t h1
    have hrest : List.Chain' (· < ·)
        ((tentriesGo rest ++ tentries right).map Prod.fst) :=
      wfTCells_chain rest right h4 hr
    simp only [tentriesGo, List.append_assoc, List.map_append]
    rw [List.map_append] at hrest
    refine List.Chain'.append hl hrest ?_
    intro x hx y hy
    rw [List.getLast?_map] at hx
    rw [← List.map_append, List.head?_map] at hy
    cases hex : (tentries t).getLast? with
    | none => rw [hex] at hx; cases hx
    | some e =>
      rw [hex] at hx
      cases hx
      cases hey : (tentriesGo rest ++ tentries right).head? with
      | none => rw [hey] at hy; cases hy
      | some e' =>
        rw [hey] at hy
        cases hy
        have hxe : e ∈ tentries t := List.mem_of_mem_getLast? hex
        have hye : e' ∈ tentriesGo rest ++ tentries right :=
          List.mem_of_mem_head? hey
        have := h2 e hxe
        have := habove e' hye
        omega
termination_by cells right => sizeOf cells + sizeOf right

end

mutual

theorem tentries_length :
    ∀ t : TTree, (tentries t).length = leafCellCount t
  | .leaf cells => rfl
  | .interior cells right => by
    simp only [tentries, leafCellCount, List.length_append,
      tentriesGo_length cells, tentries_length right]

theorem tentriesGo_length :
    ∀ cells : List (Nat × TTree), (tentriesGo cells).length = leafCellCountGo cells
  | [] => rfl
  | (k, t) :: rest => by
    simp only [tentriesGo, leafCellCountGo, List.length_append,
      tentries_length t, tentriesGo_length rest]

end

/-- Claim C3.  On a well-formed table B-tree the full scan returns
exactly the substituted leaf cells in B-tree order, whose row-ids are
strictly ascending, and whose number equals the total number of cells
on the tree's leaf-table pages. -/
theorem selectWithoutIndex_scan (t : TTree) (hwf : wfT t = true) :
    selectWithoutIndex t = some ((tentries t).map substOf) ∧
    ((tentries t).map substOf).length = leafCellCount t ∧
    List.Chain' (· < ·) ((tentries t).map Prod.fst) :=
  ⟨selectWithoutIndex_eq t hwf,
    by rw [List.length_map]; exact tentries_length t,
    wfT_chain t hwf⟩

/-- Witness for `selectWithoutIndex_scan` on a two-level tree. -/
theorem selectWithoutIndex_scan_witness :
    wfT (.interior [(2, .leaf [(1, [.null, .text "x"]), (2, [.null, .text "y"])])]
        (.leaf [(3, [.null, .text "z"])])) = true ∧
    (selectWithoutIndex
        (.interior [(2, .leaf [(1, [.null, .text "x"]), (2, [.null, .text "y"])])]
          (.leaf [(3, [.null, .text "z"])])) =
      some ((tentries
          (.interior [(2, .leaf [(1, [.null, .text "x"]), (2, [.null, .text "y"])])]
            (.leaf [(3, [.null, .text "z"])]))).map substOf) ∧
    ((tentries
        (.interior [(2, .leaf [(1, [.null, .text "x"]), (2, [.null, .text "y"])])]
          (.leaf [(3, [.null, .text "z"])]))).map substOf).length =
      leafCellCount
        (.interior [(2, .leaf [(1, [.null, .text "x"]), (2, [.null, .text "y"])])]
          (.leaf [(3, [.null, .text "z"])])) ∧
    List.Chain' (· < ·) ((tentries
        (.interior [(2, .leaf [(1, [.null, .text "x"]), (2, [.null, .text "y"])])]
          (.leaf [(3, [.null, .text "z"])]))).map Prod.fst)) :=
  ⟨by decide, selectWithoutIndex_scan _ (by decide)⟩

/-! ## Claim C2: the index-assisted lookup. -/

theorem toU64_toI64 (n : Nat) (h : n < 2 ^ 64) : toU64 (toI64 n) = n := by
  unfold toU64 toI64
  have hmod : n % 2 ^ 64 = n := Nat.mod_eq_of_lt h
  split <;> omega

theorem chain'_lt_of_mem {x y : Nat} : ∀ {l : List Nat},
    List.Chain' (· < ·) (x :: l) → y ∈ l → x < y := by
  intro l
  induction l generalizing x with
  | nil => intro _ hy; cases hy
  | cons z rest ih =>
    intro hc hy
    rw [List.chain'_cons] at hc
    rcases List.mem_cons.mp hy with rfl | hy'
    · exact hc.1
    · exact lt_trans hc.1 (ih hc.2 hy')

theorem ppAux_correct (p : Nat → Bool) (xs : List Nat) (n : Nat)
    (h1 : ∀ i, i < n → p (xs.getD i 0) = true)
    (h2 : ∀ i, n ≤ i → i < xs.length → p (xs.getD i 0) = false) :
    ∀ fuel left right, left ≤ n → n ≤ right → right ≤ xs.length →
      right - left ≤ fuel → ppAux p xs fuel left right = n := by
  intro fuel
  induction fuel with
  | zero =>
    intro left right hln hnr hrl hf
    simp only [ppAux]
    omega
  | succ fuel ih =>
    intro left right hln hnr hrl hf
    simp only [ppAux]
    by_cases hlr : left < right
    · rw [if_pos hlr]
      by_cases hp : p (xs.getD (left + (right - left) / 2) 0) = true
      · rw [if_pos hp]
        have hmidn : left + (right - left) / 2 < n := by
          by_contra hcon
          push_neg at hcon
          rw [h2 _ hcon (by omega)] at hp
          cases hp
        exact ih (left + (right - left) / 2 + 1) right (by omega) hnr hrl (by omega)
      · rw [if_neg hp]
        have hmidn : n ≤ left + (right - left) / 2 := by
          by_contra hcon
          push_neg at hcon
          rw [h1 _ hcon] at hp
          exact hp rfl
        exact ih left (left + (right - left) / 2) hln hmidn (by omega) (by omega)
    · rw [if_neg hlr]
      omega

theorem takeWhile_getD_pos (p : Nat → Bool) :
    ∀ (xs : List Nat) (i : Nat), i < (xs.takeWhile p).length →
      p (xs.getD i 0) = true := by
  intro xs
  induction xs with
  | nil => intro i hi; simp [List.takeWhile] at hi
  | cons x t ih =>
    intro i hi
    by_cases hp : p x = true
    · rw [List.takeWhile_cons_of_pos hp] at hi
      cases i with
      | zero => exact hp
      | succ j => exact ih j (by simpa using hi)
    · rw [List.takeWhile_cons_of_neg (by simpa using hp)] at hi
      cases hi

theorem takeWhile_getD_neg_sorted (k : Nat) :
    ∀ xs : List Nat, List.Chain' (· < ·) xs →
      ∀ i, (xs.takeWhile fun id => decide (id ≤ k)).length ≤ i → i < xs.length →
        (decide ((xs.getD i 0) ≤ k)) = false := by
  intro xs
  induction xs with
  | nil => intro _ i _ hi; simp at hi
  | cons x t ih =>
    intro hc i hn hi
    by_cases hp : x ≤ k
    · rw [List.takeWhile_cons_of_pos (by simpa using hp)] at hn
      cases i with
      | zero => simp at hn
      | succ j =>
        exact ih (List.Chain'.tail hc) j (by simpa using hn) (by simpa using hi)
    · cases i with
      | zero => simpa using hp
      | succ j =>
        have hj : j < t.length := by simpa using hi
        have hmem : t.getD j 0 ∈ t := by
          rw [List.getD_eq_getElem t 0 hj]
          exact List.getElem_mem hj
        have hx : x < t.getD j 0 := chain'_lt_of_mem hc hmem
        simp only [List.getD_cons_succ]
        simp only [decide_eq_false_iff_not]
        omega

theorem partitionPoint_sorted (k : Nat) (xs : List Nat)
    (hs : List.Chain' (· < ·) xs) :
    partitionPoint (fun id => decide (id ≤ k)) xs =
      (xs.takeWhile fun id => decide (id ≤ k)).length := by
  unfold partitionPoint
  exact ppAux_correct _ xs _ (takeWhile_getD_pos _ xs)
    (takeWhile_getD_neg_sorted k xs hs) xs.length 0 xs.length
    (Nat.zero_le _) (List.takeWhile_prefix _).length_le le_rfl (by omega)

theorem take_pp_eq_takeWhile (k : Nat) (xs : List Nat)
    (hs : List.Chain' (· < ·) xs) :
    xs.take (partitionPoint (fun id => decide (id ≤ k)) xs) =
      xs.takeWhile fun id => decide (id ≤ k) := by
  rw [partitionPoint_sorted k xs hs]
  exact (List.prefix_iff_eq_take.mp (List.takeWhile_prefix _)).symm

theorem drop_pp_eq_dropWhile (k : Nat) (xs : List Nat)
    (hs : List.Chain' (· < ·) xs) :
    xs.drop (partitionPoint (fun id => decide (id ≤ k)) xs) =
      xs.dropWhile fun id => decide (id ≤ k) := by
  rw [partitionPoint_sorted k xs hs]
  nth_rewrite 2 [← List.takeWhile_append_dropWhile (fun id => decide (id ≤ k)) xs]
  exact List.drop_left _ _

theorem dropWhile_gt (k : Nat) (xs : List Nat) (hs : List.Chain' (· < ·) xs) :
    ∀ x ∈ xs.dropWhile fun id => decide (id ≤ k), k < x := by
  intro x hx
  cases hd : xs.dropWhile (fun id => decide (id ≤ k)) with
  | nil => rw [hd] at hx; cases hx
  | cons y ys =>
    have hy : ¬(y ≤ k) := by
      have := List.head?_dropWhile_not (fun id => decide (id ≤ k)) xs
      rw [hd] at this
      simpa using this
    have hchain : List.Chain' (· < ·) (y :: ys) := by
      rw [← hd]
      exact List.Chain'.sublist hs (List.dropWhile_sublist _)
    rw [hd] at hx
    rcases List.mem_cons.mp hx with rfl | hx'
    · omega
    · have := chain'_lt_of_mem hchain hx'
      omega

theorem rowOfEntries_append_left (es₁ es₂ : List (Nat × List SerialValue))
    (id : Nat) (h : ∃ c ∈ es₁, c.1 = id) :
    rowOfEntries (es₁ ++ es₂) id = rowOfEntries es₁ id := by
  obtain ⟨c, hc, hcid⟩ := h
  have hsome : (es₁.find? fun c => c.1 == id).isSome := by
    rw [List.find?_isSome]
    exact ⟨c, hc, by simpa using hcid⟩
  unfold rowOfEntries
  rw [List.find?_append]
  cases hf : es₁.find? fun c => c.1 == id with
  | none => rw [hf] at hsome; cases hsome
  | some d => rfl

theorem rowOfEntries_append_right (es₁ es₂ : List (Nat × List SerialValue))
    (id : Nat) (h : ∀ c ∈ es₁, c.1 ≠ id) :
    rowOfEntries (es₁ ++ es₂) id = rowOfEntries es₂ id := by
  unfold rowOfEntries
  rw [List.find?_append]
  have hnone : es₁.find? (fun c => c.1 == id) = none :=
    List.find?_eq_none.mpr fun c hc => by simpa using h c hc
  rw [hnone]
  rfl

theorem advanceTo_spec :
    ∀ (cells : List (Nat × List SerialValue)) (id : Nat),
      List.Chain' (· < ·) (cells.map Prod.fst) →
      (∀ c ∈ cells, aliasOkB c = true) →
      (∀ c ∈ cells, c.1 < 2 ^ 64) →
      (∃ c ∈ cells, c.1 = id) →
      ∃ pre c post, cells = pre ++ c :: post ∧ (∀ d ∈ pre, d.1 < id) ∧ c.1 = id ∧
        advanceTo id (cells.map substOf) = some (substOf c, post.map substOf) := by
  intro cells
  induction cells with
  | nil => intro id _ _ _ hp; obtain ⟨c, hc, -⟩ := hp; cases hc
  | cons c0 rest ih =>
    intro id hchain halias hu64 hpresent
    obtain ⟨rid0, r0⟩ := c0
    have halias0 := halias (rid0, r0) (by simp)
    obtain ⟨vs0, rfl⟩ : ∃ vs0, r0 = SerialValue.null :: vs0 := by
      cases r0 with
      | nil => simp [aliasOkB] at halias0
      | cons v vs =>
        cases v <;> first
          | exact ⟨vs, rfl⟩
          | simp [aliasOkB] at halias0
    have hu0 : rid0 < 2 ^ 64 := hu64 (rid0, SerialValue.null :: vs0) (by simp)
    have hsub : substOf (rid0, SerialValue.null :: vs0) =
        SerialValue.int64 (toI64 rid0) :: vs0 := by
      simp [substOf]
    have hstep : advanceTo id
        (((rid0, SerialValue.null :: vs0) :: rest).map substOf) =
        if toU64 (toI64 rid0) < id then advanceTo id (rest.map substOf)
        else some (SerialValue.int64 (toI64 rid0) :: vs0, rest.map substOf) := by
      simp only [List.map_cons, hsub, advanceTo, List.head?_cons, SerialValue.asRowid]
    rw [toU64_toI64 rid0 hu0] at hstep
    by_cases hlt : rid0 < id
    · rw [if_pos hlt] at hstep
      have hrest : ∃ c ∈ rest, c.1 = id := by
        obtain ⟨c, hc, hcid⟩ := hpresent
        rcases List.mem_cons.mp hc with rfl | hc'
        · exact absurd hcid (by simp; omega)
        · exact ⟨c, hc', hcid⟩
      obtain ⟨pre, c, post, heq, hpre, hcid, hadv⟩ :=
        ih id (by simpa using List.Chain'.tail hchain)
          (fun d hd => halias d (by simp [hd]))
          (fun d hd => hu64 d (by simp [hd])) hrest
      refine ⟨(rid0, SerialValue.null :: vs0) :: pre, c, post,
        by rw [heq, List.cons_append], ?_, hcid, ?_⟩
      · intro d hd
        rcases List.mem_cons.mp hd with rfl | hd'
        · exact hlt
        · exact hpre d hd'
      · rw [hstep, hadv]
    · rw [if_neg hlt] at hstep
      have hid : id = rid0 := by
        obtain ⟨c, hc, hcid⟩ := hpresent
        rcases List.mem_cons.mp hc with rfl | hc'
        · simpa using hcid.symm
        · have : rid0 < c.1 := by
            refine chain'_lt_of_mem ?_ (List.mem_map_of_mem Prod.fst hc')
            simpa using hchain
          omega
      refine ⟨[], (rid0, SerialValue.null :: vs0), rest, rfl, by simp, by simp [hid], ?_⟩
      rw [hstep, hsub]

theorem lookupRows_spec (cells : List (Nat × List SerialValue)) :
    ∀ ids : List Nat,
      List.Chain' (· < ·) (cells.map Prod.fst) →
      (∀ c ∈ cells, aliasOkB c = true) →
      (∀ c ∈ cells, c.1 < 2 ^ 64) →
      List.Chain' (· < ·) ids →
      (∀ id ∈ ids, ∃ c ∈ cells, c.1 = id) →
      lookupRows (cells.map substOf) ids = some (ids.map (rowOfEntries cells)) := by
  intro ids
  induction ids generalizing cells with
  | nil => intro _ _ _ _ _; rfl
  | cons id ids' ih =>
    intro hchain halias hu64 hcids hpresent
    obtain ⟨pre, c, post, heq, hpre, hcid, hadv⟩ :=
      advanceTo_spec cells id hchain halias hu64 (hpresent id (by simp))
    have hpostsub : List.Sublist post cells := by
      rw [heq]
      exact List.Sublist.trans (List.sublist_cons_self c post)
        (List.sublist_append_right pre _)
    have hrec := ih post
      (List.Chain'.sublist hchain (List.Sublist.map Prod.fst hpostsub))
      (fun d hd => halias d (hpostsub.mem hd))
      (fun d hd => hu64 d (hpostsub.mem hd))
      (List.Chain'.tail hcids)
      ?_
    · simp only [lookupRows, hadv, hrec, List.map_cons]
      congr 1
      congr 1
      · rw [heq, ← hcid]
        rw [rowOfEntries_append_right _ _ c.1 (fun d hd => by have := hpre d hd; omega)]
        unfold rowOfEntries
        rw [List.find?_cons_of_pos _ (by simp)]
      · apply List.map_congr_left
        intro id' hid'
        have hgt : id < id' := chain'_lt_of_mem hcids hid'
        rw [heq, rowOfEntries_append_right _ _ id'
          (fun d hd => by have := hpre d hd; omega)]
        unfold rowOfEntries
        rw [List.find?_cons_of_neg _ (by simp; omega)]
    · intro id' hid'
      have hgt : id < id' := chain'_lt_of_mem hcids hid'
      obtain ⟨d, hd, hdid⟩ := hpresent id' (by simp [hid'])
      rw [heq] at hd
      rcases List.mem_append.mp hd with hd' | hd'
      · exact absurd hdid (by have := hpre d hd'; omega)
      · rcases List.mem_cons.mp hd' with rfl | hd''
        · exact absurd hdid (by omega)
        · exact ⟨d, hd'', hdid⟩

theorem wfTCells_keyLast :
    ∀ (rest : List (Nat × TTree)) (right : TTree) (k : Nat) (t : TTree)
      (kL : Nat) (tL : TTree),
      wfTCells ((k, t) :: rest) right = true → rest.getLast? = some (kL, tL) →
      k < kL := by
  intro rest
  induction rest with
  | nil => intro right k t kL tL _ hlast; cases hlast
  | cons c' rest' ih =>
    intro right k t kL tL h hlast
    obtain ⟨k', t'⟩ := c'
    obtain ⟨-, -, h3, h4⟩ := wfTCells_cons_parts h
    cases rest' with
    | nil =>
      simp only [List.getLast?_singleton, Option.some.injEq, Prod.mk.injEq] at hlast
      obtain ⟨rfl, -⟩ := hlast
      exact h3.1
    | cons c'' rest'' =>
      rw [List.getLast?_cons_cons] at hlast
      exact lt_trans h3.1 (ih right k' t' kL tL h4 hlast)

theorem wfTCells_below :
    ∀ (cells : List (Nat × TTree)) (right : TTree) (kL : Nat) (tL : TTree),
      wfTCells cells right = true → cells.getLast? = some (kL, tL) →
      ∀ e ∈ tentriesGo cells, e.1 ≤ kL := by
  intro cells
  induction cells with
  | nil => intro right kL tL _ hlast; cases hlast
  | cons c rest ih =>
    intro right kL tL h hlast e he
    obtain ⟨k, t⟩ := c
    obtain ⟨-, h2, -, h4⟩ := wfTCells_cons_parts h
    simp only [tentriesGo, List.mem_append] at he
    cases rest with
    | nil =>
      simp only [List.getLast?_singleton, Option.some.injEq, Prod.mk.injEq] at hlast
      obtain ⟨rfl, -⟩ := hlast
      rcases he with he | he
      · exact h2 e he
      · cases he
    | cons c' rest' =>
      rw [List.getLast?_cons_cons] at hlast
      have hk : k < kL := wfTCells_keyLast _ right k t kL tL h hlast
      rcases he with he | he
      · have := h2 e he; omega
      · exact ih right kL tL h4 hlast e he

theorem wfTCells_right_above :
    ∀ (cells : List (Nat × TTree)) (right : TTree) (kL : Nat) (tL : TTree),
      wfTCells cells right = true → cells.getLast? = some (kL, tL) →
      ∀ e ∈ tentries right, kL < e.1 := by
  intro cells
  induction cells with
  | nil => intro right kL tL _ hlast; cases hlast
  | cons c rest ih =>
    intro right kL tL h hlast e he
    obtain ⟨k, t⟩ := c
    obtain ⟨-, -, h3, h4⟩ := wfTCells_cons_parts h
    cases rest with
    | nil =>
      simp only [List.getLast?_singleton, Option.some.injEq, Prod.mk.injEq] at hlast
      obtain ⟨rfl, -⟩ := hlast
      exact h3 e he
    | cons c' rest' =>
      rw [List.getLast?_cons_cons] at hlast
      exact ih right kL tL h4 hlast e he

theorem takeWhile_append_pos (p : Nat → Bool) :
    ∀ (l₁ l₂ : List Nat), (∀ x ∈ l₁, p x = true) →
      (l₁ ++ l₂).takeWhile p = l₁ ++ l₂.takeWhile p := by
  intro l₁
  induction l₁ with
  | nil => intro l₂ _; rfl
  | cons x t ih =>
    intro l₂ h
    rw [List.cons_append, List.takeWhile_cons_of_pos (h x (by simp)),
      ih l₂ fun y hy => h y (by simp [hy]), List.cons_append]

theorem dropWhile_append_pos (p : Nat → Bool) :
    ∀ (l₁ l₂ : List Nat), (∀ x ∈ l₁, p x = true) →
      (l₁ ++ l₂).dropWhile p = l₂.dropWhile p := by
  intro l₁
  induction l₁ with
  | nil => intro l₂ _; rfl
  | cons x t ih =>
    intro l₂ h
    rw [List.cons_append, List.dropWhile_cons_of_pos (h x (by simp)),
      ih l₂ fun y hy => h y (by simp [hy])]

theorem wfT_leaf_chain {cells : List (Nat × List SerialValue)}
    (h : wfT (.leaf cells) = true) :
    List.Chain' (· < ·) (cells.map Prod.fst) := by
  simp only [wfT, Bool.and_eq_true] at h
  exact (chainLtB_iff _).mp h.1

theorem wfT_leaf_u64 {cells : List (Nat × List SerialValue)}
    (h : wfT (.leaf cells) = true) : ∀ c ∈ cells, c.1 < 2 ^ 64 := by
  intro c hc
  simp only [wfT, Bool.and_eq_true, List.all_eq_true] at h
  have := h.2 c hc
  simp only [Bool.and_eq_true, decide_eq_true_eq] at this
  exact this.2

mutual

theorem selectWithIndex_found :
    ∀ (t : TTree) (ids : List Nat),
      wfT t = true →
      (∀ c ∈ tentries t, aliasOkB c = true) →
      List.Chain' (· < ·) ids →
      (∀ id ∈ ids, ∃ c ∈ tentries t, c.1 = id) →
      selectWithIndex ids t = some (ids.map (rowOfEntries (tentries t)))
  | .leaf cells, ids, hwf, halias, hids, hpres => by
    simp only [selectWithIndex, readCellsModel_spec cells (wfT_leaf_nonempty hwf)]
    exact lookupRows_spec cells ids (wfT_leaf_chain hwf) halias (wfT_leaf_u64 hwf)
      hids hpres
  | .interior cells right, ids, hwf, halias, hids, hpres => by
    obtain ⟨hne, hwfc, hwfr⟩ := wfT_interior_parts hwf
    cases cells with
    | nil => exact absurd rfl hne
    | cons c0 rest0 =>
      obtain ⟨⟨kL, tL⟩, hlast⟩ : ∃ lc, (c0 :: rest0).getLast? = some lc := by
        cases hgl : (c0 :: rest0).getLast? with
        | some lc => exact ⟨lc, rfl⟩
        | none => simp at hgl
      have hpresGo : ∀ id ∈ ids, id ≤ kL →
          ∃ c ∈ tentriesGo (c0 :: rest0), c.1 = id := by
        intro id hid hle
        obtain ⟨c, hc, hcid⟩ := hpres id hid
        simp only [tentries, List.mem_append] at hc
        rcases hc with hc | hc
        · exact ⟨c, hc, hcid⟩
        · have := wfTCells_right_above _ right kL tL hwfc hlast c hc
          omega
      have haliasGo : ∀ c ∈ tentriesGo (c0 :: rest0), aliasOkB c = true :=
        fun c hc => halias c (by simp only [tentries, List.mem_append]; exact Or.inl hc)
      have hloop := selectLoop_found (c0 :: rest0) right ids kL tL hwfc haliasGo
        hids hlast hpresGo
      simp only [selectWithIndex, hloop]
      by_cases hdw : (ids.dropWhile fun id => decide (id ≤ kL)) = []
      · rw [hdw]
        simp only [List.isEmpty_nil, if_true]
        have hall : ∀ x ∈ ids, decide (x ≤ kL) = true := by
          have := List.dropWhile_eq_nil_iff.mp hdw
          intro x hx
          simpa using this x hx
        have hids_eq : ids.takeWhile (fun id => decide (id ≤ kL)) = ids :=
          List.takeWhile_eq_self_iff.mpr hall
        rw [hids_eq]
        congr 1
        apply List.map_congr_left
        intro id hid
        have hle : id ≤ kL := by simpa using hall id hid
        simp only [tentries]
        exact (rowOfEntries_append_left _ _ id (hpresGo id hid hle)).symm
      · have hdwE : (ids.dropWhile fun id => decide (id ≤ kL)).isEmpty = false := by
          simp [List.isEmpty_iff, hdw]
        rw [hdwE]
        simp only [Bool.false_eq_true, if_false]
        have hrec := selectWithIndex_found right
          (ids.dropWhile fun id => decide (id ≤ kL)) hwfr
          (fun c hc => halias c
            (by simp only [tentries, List.mem_append]; exact Or.inr hc))
          (List.Chain'.sublist hids (List.dropWhile_sublist _))
          (by
            intro id hid
            have hgt : kL < id := dropWhile_gt kL ids hids id hid
            obtain ⟨c, hc, hcid⟩ := hpres id
              ((List.dropWhile_sublist _).subset hid)
            simp only [tentries, List.mem_append] at hc
            rcases hc with hc | hc
            · have := wfTCells_below _ right kL tL hwfc hlast c hc
              omega
            · exact ⟨c, hc, hcid⟩)
        rw [hrec]
        have htarget : ids.map (rowOfEntries (tentries (.interior (c0 :: rest0) right))) =
            (ids.takeWhile fun id => decide (id ≤ kL)).map
              (rowOfEntries (tentriesGo (c0 :: rest0))) ++
            (ids.dropWhile fun id => decide (id ≤ kL)).map
              (rowOfEntries (tentries right)) := by
          conv_lhs =>
            rw [← List.takeWhile_append_dropWhile (fun id => decide (id ≤ kL)) ids]
          rw [List.map_append]
          congr 1
          · apply List.map_congr_left
            intro id hid
            have hle : id ≤ kL := by simpa using List.mem_takeWhile_imp hid
            have hin : id ∈ ids := (List.takeWhile_prefix _).sublist.subset hid
            simp only [tentries]
            exact rowOfEntries_append_left _ _ id (hpresGo id hin hle)
          · apply List.map_congr_left
            intro id hid
            have hgt : kL < id := dropWhile_gt kL ids hids id hid
            simp only [tentries]
            exact rowOfEntries_append_right _ _ id fun c hc => by
              have := wfTCells_below _ right kL tL hwfc hlast c hc
              omega
        rw [htarget]
termination_by t ids => sizeOf t

theorem selectLoop_found :
    ∀ (cells : List (Nat × TTree)) (right : TTree) (ids : List Nat)
      (kL : Nat) (tL : TTree),
      wfTCells cells right = true →
      (∀ c ∈ tentriesGo cells, aliasOkB c = true) →
      List.Chain' (· < ·) ids →
      cells.getLast? = some (kL, tL) →
      (∀ id ∈ ids, id ≤ kL → ∃ c ∈ tentriesGo cells, c.1 = id) →
      selectLoop ids cells =
        some ((ids.takeWhile fun id => decide (id ≤ kL)).map
            (rowOfEntries (tentriesGo cells)),
          ids.dropWhile fun id => decide (id ≤ kL))
  | [], _, _, _, _, _, _, _, hlast, _ => by cases hlast
  | (k, t) :: rest, right, ids, kL, tL, hwfc, halias, hids, hlast, hpres => by
    obtain ⟨hwt, hbound, -, hwfc'⟩ := wfTCells_cons_parts hwfc
    have htake := take_pp_eq_takeWhile k ids hids
    have hdrop := drop_pp_eq_dropWhile k ids hids
    simp only [selectLoop, htake, hdrop]
    cases rest with
    | nil =>
      simp only [List.getLast?_singleton, Option.some.injEq, Prod.mk.injEq] at hlast
      obtain ⟨rfl, rfl⟩ := hlast
      have hprest : ∀ id ∈ ids.takeWhile (fun id => decide (id ≤ k)),
          ∃ c ∈ tentries t, c.1 = id := by
        intro id hid
        have hle : id ≤ k := by simpa using List.mem_takeWhile_imp hid
        have hin : id ∈ ids := (List.takeWhile_prefix _).sublist.subset hid
        obtain ⟨c, hc, hcid⟩ := hpres id hin hle
        simp only [tentriesGo, List.append_nil] at hc
        exact ⟨c, hc, hcid⟩
      have hres1 : (if (ids.takeWhile fun id => decide (id ≤ k)).isEmpty then some []
          else selectWithIndex (ids.takeWhile fun id => decide (id ≤ k)) t) =
          some ((ids.takeWhile fun id => decide (id ≤ k)).map
            (rowOfEntries (tentries t))) := by
        by_cases htwE : (ids.takeWhile fun id => decide (id ≤ k)) = []
        · rw [htwE]; rfl
        · have : (ids.takeWhile fun id => decide (id ≤ k)).isEmpty = false := by
            simp [List.isEmpty_iff, htwE]
          rw [this]
          simp only [Bool.false_eq_true, if_false]
          exact selectWithIndex_found t _ hwt
            (fun c hc => halias c (by
              simp only [tentriesGo, List.append_nil]
              exact hc))
            (List.Chain'.sublist hids (List.takeWhile_prefix _).sublist)
            hprest
      rw [hres1]
      simp only [tentriesGo, List.append_nil]
      by_cases hdwE : (ids.dropWhile fun id => decide (id ≤ k)) = []
      · rw [hdwE]
        simp only [List.isEmpty_nil, if_true]
      · have : (ids.dropWhile fun id => decide (id ≤ k)).isEmpty = false := by
          simp [List.isEmpty_iff, hdwE]
        rw [this]
        simp only [Bool.false_eq_true, if_false]
    | cons c' rest' =>
      rw [List.getLast?_cons_cons] at hlast
      have hkkl : k < kL := wfTCells_keyLast (c' :: rest') right k t kL tL hwfc hlast
      have hprest : ∀ id ∈ ids.takeWhile (fun id => decide (id ≤ k)),
          ∃ c ∈ tentries t, c.1 = id := by
        intro id hid
        have hle : id ≤ k := by simpa using List.mem_takeWhile_imp hid
        have hin : id ∈ ids := (List.takeWhile_prefix _).sublist.subset hid
        obtain ⟨c, hc, hcid⟩ := hpres id hin (by omega)
        simp only [tentriesGo, List.mem_append] at hc
        rcases hc with hc | hc
        · exact ⟨c, hc, hcid⟩
        · have hmem : c ∈ tentriesGo (c' :: rest') ++ tentries right := by
            simp only [tentriesGo, List.mem_append]
            exact Or.inl hc
          have : k < c.1 := wfTCells_above (c' :: rest') right k t hwfc c hmem
          omega
      have hres1 : (if (ids.takeWhile fun id => decide (id ≤ k)).isEmpty then some []
          else selectWithIndex (ids.takeWhile fun id => decide (id ≤ k)) t) =
          some ((ids.takeWhile fun id => decide (id ≤ k)).map
            (rowOfEntries (tentries t))) := by
        by_cases htwE : (ids.takeWhile fun id => decide (id ≤ k)) = []
        · rw [htwE]; rfl
        · have : (ids.takeWhile fun id => decide (id ≤ k)).isEmpty = false := by
            simp [List.isEmpty_iff, htwE]
          rw [this]
          simp only [Bool.false_eq_true, if_false]
          exact selectWithIndex_found t _ hwt
            (fun c hc => halias c (by
              simp only [tentriesGo]
              exact List.mem_append_left _ hc))
            (List.Chain'.sublist hids (List.takeWhile_prefix _).sublist)
            hprest
      rw [hres1]
      have hagree_left : ∀ id ∈ ids.takeWhile (fun id => decide (id ≤ k)),
          rowOfEntries (tentries t) id =
          rowOfEntries (tentriesGo ((k, t) :: c' :: rest')) id := by
        intro id hid
        simp only [tentriesGo]
        exact (rowOfEntries_append_left _ _ id (hprest id hid)).symm
      by_cases hdwE : (ids.dropWhile fun id => decide (id ≤ k)) = []
      · rw [hdwE]
        simp only [List.isEmpty_nil, if_true]
        have hall : ∀ x ∈ ids, x ≤ k := by
          have := List.dropWhile_eq_nil_iff.mp hdwE
          intro x hx
          simpa using this x hx
        have htw_k : ids.takeWhile (fun id => decide (id ≤ k)) = ids :=
          List.takeWhile_eq_self_iff.mpr fun x hx => by simpa using hall x hx
        have htw_kl : ids.takeWhile (fun id => decide (id ≤ kL)) = ids :=
          List.takeWhile_eq_self_iff.mpr fun x hx => by
            have := hall x hx
            simp only [decide_eq_true_eq]
            omega
        have hdw_kl : ids.dropWhile (fun id => decide (id ≤ kL)) = [] :=
          List.dropWhile_eq_nil_iff.mpr fun x hx => by
            have := hall x hx
            simp only [decide_eq_true_eq]
            omega
        rw [htw_kl, hdw_kl, htw_k]
        have emap : List.map (rowOfEntries (tentries t)) ids =
            List.map (rowOfEntries (tentriesGo ((k, t) :: c' :: rest'))) ids :=
          List.map_congr_left fun id hid => hagree_left id (htw_k.symm ▸ hid)
        rw [emap]
      · have : (ids.dropWhile fun id => decide (id ≤ k)).isEmpty = false := by
          simp [List.isEmpty_iff, hdwE]
        rw [this]
        simp only [Bool.false_eq_true, if_false]
        have hrec := selectLoop_found (c' :: rest') right
          (ids.dropWhile fun id => decide (id ≤ k)) kL tL hwfc'
          (fun c hc => halias c (by
            simp only [tentriesGo]
            exact List.mem_append_right _ hc))
          (List.Chain'.sublist hids (List.dropWhile_sublist _))
          hlast
          (by
            intro id hid hle
            have hgt : k < id := dropWhile_gt k ids hids id hid
            obtain ⟨c, hc, hcid⟩ := hpres id ((List.dropWhile_sublist _).subset hid) hle
            simp only [tentriesGo, List.mem_append] at hc
            rcases hc with hc | hc
            · have := hbound c hc
              omega
            · refine ⟨c, ?_, hcid⟩
              simp only [tentriesGo, List.mem_append]
              exact hc)
        rw [hrec]
        dsimp only
        have hsplit : ids = (ids.takeWhile fun id => decide (id ≤ k)) ++
            (ids.dropWhile fun id => decide (id ≤ k)) :=
          (List.takeWhile_append_dropWhile _ _).symm
        have halltw : ∀ x ∈ ids.takeWhile (fun id => decide (id ≤ k)),
            (fun id => decide (id ≤ kL)) x = true := by
          intro x hx
          have : x ≤ k := by simpa using List.mem_takeWhile_imp hx
          simp
          omega
        have htw_comp : ids.takeWhile (fun id => decide (id ≤ kL)) =
            (ids.takeWhile fun id => decide (id ≤ k)) ++
            ((ids.dropWhile fun id => decide (id ≤ k)).takeWhile
              fun id => decide (id ≤ kL)) := by
          conv_lhs => rw [hsplit]
          exact takeWhile_append_pos _ _ _ halltw
        have hdw_comp : ids.dropWhile (fun id => decide (id ≤ kL)) =
            (ids.dropWhile fun id => decide (id ≤ k)).dropWhile
              fun id => decide (id ≤ kL) := by
          conv_lhs => rw [hsplit]
          exact dropWhile_append_pos _ _ _ halltw
        rw [htw_comp, hdw_comp, List.map_append]
        have e1 : List.map (rowOfEntries (tentries t))
            (ids.takeWhile fun id => decide (id ≤ k)) =
            List.map (rowOfEntries (tentriesGo ((k, t) :: c' :: rest')))
              (ids.takeWhile fun id => decide (id ≤ k)) :=
          List.map_congr_left hagree_left
        have e2 : List.map (rowOfEntries (tentriesGo (c' :: rest')))
            ((ids.dropWhile fun id => decide (id ≤ k)).takeWhile
              fun id => decide (id ≤ kL)) =
            List.map (rowOfEntries (tentriesGo ((k, t) :: c' :: rest')))
              ((ids.dropWhile fun id => decide (id ≤ k)).takeWhile
                fun id => decide (id ≤ kL)) := by
          apply List.map_congr_left
          intro id hid
          have hgt : k < id := dropWhile_gt k ids hids id
            ((List.takeWhile_prefix _).sublist.subset hid)
          exact (rowOfEntries_append_right (tentries t) (tentriesGo (c' :: rest'))
            id fun c hc => by
              have := hbound c hc
              omega).symm
        rw [e1, e2]
termination_by cells right ids kL tL => sizeOf cells + sizeOf right

end

/-- Claim C2 counterexample: on the rowid-alias leaf table with rows 1
and 3, requesting the absent row-id 2 does NOT fail: the lookup
silently returns the row whose row-id is 3 (the `skip_while(..).next()`
iterator takes the next cell without checking that its row-id matches). -/
theorem selectWithIndex_missing_counterexample :
    wfT (.leaf [(1, [.null]), (3, [.null])]) = true ∧
    taliasAll (.leaf [(1, [.null]), (3, [.null])]) = true ∧
    (∀ c ∈ tentries (.leaf [(1, [.null]), (3, [.null])]), c.1 ≠ 2) ∧
    selectWithIndex [2] (.leaf [(1, [.null]), (3, [.null])]) =
      some [[.int64 3]] ∧
    selectWithIndex [2] (.leaf [(1, [.null]), (3, [.null])]) ≠ none := by
  refine ⟨by decide, by decide, by decide, by decide, by decide⟩

/-- Claim C2 as amended: on a well-formed rowid-alias table B-tree
(leaf records storing NULL in their first column, which is the layout
`select_with_index` assumes when it compares `c[0].as_rowid()` against
the requested ids), a strictly ascending list of requested row-ids all
of which are present in the table is answered with exactly the rows for
those row-ids, in input order.  The claimed hard error on a missing
row-id does not hold: a missing id yields the next row with a larger
row-id on the leaf reached (see the counterexample), and only when no
such row remains does the lookup fail. -/
theorem selectWithIndex_lookup (t : TTree) (ids : List Nat)
    (hwf : wfT t = true)
    (halias : taliasAll t = true)
    (hids : List.Chain' (· < ·) ids)
    (hpres : ∀ id ∈ ids, ∃ c ∈ tentries t, c.1 = id) :
    selectWithIndex ids t = some (ids.map (rowOfId t)) :=
  selectWithIndex_found t ids hwf
    (fun c hc => by
      have := List.all_eq_true.mp halias c hc
      exact this)
    hids hpres

/-- Witness for `selectWithIndex_lookup` on a two-level tree with
requested ids 1 and 3. -/
theorem selectWithIndex_lookup_witness :
    wfT (.interior [(2, .leaf [(1, [.null, .text "x"]), (2, [.null, .text "y"])])]
        (.leaf [(3, [.null, .text "z"])])) = true ∧
    List.Chain' (· < ·) [1, 3] ∧
    selectWithIndex [1, 3]
        (.interior [(2, .leaf [(1, [.null, .text "x"]), (2, [.null, .text "y"])])]
          (.leaf [(3, [.null, .text "z"])])) =
      some ([1, 3].map (rowOfId
        (.interior [(2, .leaf [(1, [.null, .text "x"]), (2, [.null, .text "y"])])]
          (.leaf [(3, [.null, .text "z"])])))) :=
  ⟨by decide, by simp [List.chain'_cons],
    selectWithIndex_lookup _ [1, 3] (by decide) (by decide)
      (by simp [List.chain'_cons]) (by decide)⟩

/-! ## Claim C1: the index search.  First, an order theory for the
string comparison the code performs. -/

theorem char_toNat_inj {a b : Char} (h : a.toNat = b.toNat) : a = b :=
  Char.ext (UInt32.ext h)

theorem charsCmp_eq_iff : ∀ as bs : List Char, charsCmp as bs = .eq ↔ as = bs := by
  intro as
  induction as with
  | nil => intro bs; cases bs <;> simp [charsCmp]
  | cons a as' ih =>
    intro bs
    cases bs with
    | nil => simp [charsCmp]
    | cons b bs' =>
      simp only [charsCmp]
      by_cases h1 : a.toNat < b.toNat
      · rw [if_pos h1]
        constructor
        · intro h; cases h
        · intro h
          injection h with hab _
          subst hab
          omega
      · by_cases h2 : b.toNat < a.toNat
        · rw [if_neg h1, if_pos h2]
          constructor
          · intro h; cases h
          · intro h
            injection h with hab _
            subst hab
            omega
        · rw [if_neg h1, if_neg h2]
          have hab : a = b := char_toNat_inj (by omega)
          subst hab
          rw [ih bs']
          constructor
          · intro h; rw [h]
          · intro h; injection h

theorem charsCmp_gt_iff : ∀ as bs : List Char,
    charsCmp as bs = .gt ↔ charsCmp bs as = .lt := by
  intro as
  induction as with
  | nil => intro bs; cases bs <;> simp [charsCmp]
  | cons a as' ih =>
    intro bs
    cases bs with
    | nil => simp [charsCmp]
    | cons b bs' =>
      simp only [charsCmp]
      by_cases h1 : a.toNat < b.toNat
      · rw [if_pos h1, if_neg (by omega : ¬b.toNat < a.toNat), if_pos h1]
        simp
      · by_cases h2 : b.toNat < a.toNat
        · rw [if_neg h1, if_pos h2, if_pos h2]
          simp
        · rw [if_neg h1, if_neg h2, if_neg h2, if_neg h1]
          exact ih bs'

theorem charsCmp_le_trans : ∀ as bs cs : List Char,
    charsCmp as bs ≠ .gt → charsCmp bs cs ≠ .gt → charsCmp as cs ≠ .gt := by
  intro as
  induction as with
  | nil =>
    intro bs cs _ _
    cases cs <;> simp [charsCmp]
  | cons a as' ih =>
    intro bs cs h1 h2
    cases bs with
    | nil => simp [charsCmp] at h1
    | cons b bs' =>
      cases cs with
      | nil => simp [charsCmp] at h2
      | cons c cs' =>
        simp only [charsCmp] at h1 h2 ⊢
        by_cases hab : a.toNat < b.toNat
        · -- a < b; from h2, b ≤ c in every surviving case
          by_cases hbc : b.toNat < c.toNat
          · rw [if_pos (by omega : a.toNat < c.toNat)]; simp
          · by_cases hcb : c.toNat < b.toNat
            · rw [if_neg hbc, if_pos hcb] at h2; simp at h2
            · rw [if_pos (by omega : a.toNat < c.toNat)]; simp
        · by_cases hba : b.toNat < a.toNat
          · rw [if_neg hab, if_pos hba] at h1; simp at h1
          · -- a = b
            by_cases hbc : b.toNat < c.toNat
            · rw [if_pos (by omega : a.toNat < c.toNat)]; simp
            · by_cases hcb : c.toNat < b.toNat
              · rw [if_neg hbc, if_pos hcb] at h2; simp at h2
              · rw [if_neg hab, if_neg hba] at h1
                rw [if_neg hbc, if_neg hcb] at h2
                rw [if_neg (by omega : ¬a.toNat < c.toNat),
                  if_neg (by omega : ¬c.toNat < a.toNat)]
                exact ih bs' cs' h1 h2

theorem strCmp_eq_iff (a b : String) : strCmp a b = .eq ↔ a = b := by
  unfold strCmp
  rw [charsCmp_eq_iff]
  exact ⟨fun h => String.ext h, fun h => by rw [h]⟩

theorem strLeB_true_iff (a b : String) : strLeB a b = true ↔ strCmp a b ≠ .gt := by
  unfold strLeB
  cases h : strCmp a b <;> simp

theorem strLeB_false_iff (a b : String) : strLeB a b = false ↔ strCmp a b = .gt := by
  unfold strLeB
  cases h : strCmp a b <;> simp

theorem strGt_compose {a b q : String} (h1 : strCmp a q = .gt)
    (h2 : strLeB a b = true) : strCmp b q = .gt := by
  by_contra h3
  have hab : charsCmp a.data b.data ≠ .gt := (strLeB_true_iff a b).mp h2
  have hbq : charsCmp b.data q.data ≠ .gt := h3
  exact (charsCmp_le_trans a.data b.data q.data hab hbq) h1

theorem strLt_compose {a b q : String} (h1 : strCmp a q = .lt)
    (h2 : strLeB b a = true) : strCmp b q = .lt := by
  have hba : charsCmp b.data a.data ≠ .gt := (strLeB_true_iff b a).mp h2
  have haq : charsCmp a.data q.data ≠ .gt := by
    unfold strCmp at h1
    rw [h1]
    simp
  have hbq : charsCmp b.data q.data ≠ .gt := charsCmp_le_trans _ _ _ hba haq
  cases hc : strCmp b q with
  | lt => rfl
  | eq =>
    have hbeq : b = q := (strCmp_eq_iff b q).mp hc
    subst hbeq
    have : charsCmp b.data a.data = .gt := by
      rw [charsCmp_gt_iff]
      exact h1
    exact absurd this hba
  | gt => exact absurd hc hbq

theorem strLeB_trans {a b c : String} (h1 : strLeB a b = true)
    (h2 : strLeB b c = true) : strLeB a c = true := by
  rw [strLeB_true_iff] at h1 h2 ⊢
  unfold strCmp at h1 h2 ⊢
  exact charsCmp_le_trans _ _ _ h1 h2

theorem arity2_shape {r : List SerialValue} (h : arity2 r = true) :
    ∃ a b, r = [a, b] ∧ (SerialValue.asRowid b).isSome = true := by
  unfold arity2 at h
  simp only [Bool.and_eq_true, beq_iff_eq] at h
  obtain ⟨hlen, hsome⟩ := h
  match r, hlen with
  | [a, b], _ =>
    refine ⟨a, b, rfl, ?_⟩
    simpa using hsome

theorem arity2_decode {r : List SerialValue} (h : arity2 r = true) :
    decodeICell r = some (r.dropLast, rowidOf r) := by
  obtain ⟨a, b, rfl, hsome⟩ := arity2_shape h
  obtain ⟨rid, hrid⟩ := Option.isSome_iff_exists.mp hsome
  simp only [decodeICell, rowidOf, List.getLast?_cons_cons, List.getLast?_singleton,
    hrid, Option.some_bind, Option.getD_some]

theorem cellRecord_mem_ientriesGo :
    ∀ (cells : List (List SerialValue × ITree)) (c : List SerialValue × ITree),
      c ∈ cells → c.1 ∈ ientriesGo cells := by
  intro cells
  induction cells with
  | nil => intro c hc; cases hc
  | cons c0 rest ih =>
    intro c hc
    obtain ⟨r, t⟩ := c0
    simp only [ientriesGo, List.mem_append, List.mem_cons]
    rcases List.mem_cons.mp hc with rfl | hc'
    · exact Or.inr (Or.inl rfl)
    · exact Or.inr (Or.inr (ih c hc'))

theorem ientriesGo_arity_decode {cells : List (List SerialValue × ITree)}
    (h : (ientriesGo cells).all arity2 = true) :
    (cells.all fun cl => (decodeICell cl.1).isSome) = true := by
  rw [List.all_eq_true]
  intro c hc
  have harr : arity2 c.1 = true :=
    List.all_eq_true.mp h c.1 (cellRecord_mem_ientriesGo cells c hc)
  rw [arity2_decode harr]
  rfl

theorem wfI_interior_parts {fd : Nat → String}
    {cells : List (List SerialValue × ITree)} {right : ITree}
    (h : wfI fd (.interior cells right) = true) :
    cells ≠ [] ∧ wfICells fd cells right = true ∧ wfI fd right = true := by
  simp only [wfI, Bool.and_eq_true, Bool.not_eq_true'] at h
  obtain ⟨⟨h1, h2⟩, h3⟩ := h
  refine ⟨?_, h2, h3⟩
  cases cells with
  | nil => simp at h1
  | cons c rest => exact List.cons_ne_nil c rest

theorem wfICells_cons_parts {fd : Nat → String} {r : List SerialValue} {t : ITree}
    {rest : List (List SerialValue × ITree)} {right : ITree}
    (h : wfICells fd ((r, t) :: rest) right = true) :
    wfI fd t = true ∧
    (∀ e ∈ ientries t, strLeB (keyOf fd e) (keyOf fd r) = true) ∧
    (match rest with
     | [] => ∀ e ∈ ientries right, strLeB (keyOf fd r) (keyOf fd e) = true
     | (r', t') :: _ =>
       strLeB (keyOf fd r) (keyOf fd r') = true ∧
       ∀ e ∈ ientries t', strLeB (keyOf fd r) (keyOf fd e) = true) ∧
    wfICells fd rest right = true := by
  simp only [wfICells, Bool.and_eq_true, List.all_eq_true] at h
  obtain ⟨⟨⟨h1, h2⟩, h3⟩, h4⟩ := h
  refine ⟨h1, h2, ?_, h4⟩
  cases rest with
  | nil =>
    dsimp only at h3
    simp only [List.all_eq_true] at h3
    exact h3
  | cons c rest' =>
    obtain ⟨r', t'⟩ := c
    dsimp only at h3
    simp only [Bool.and_eq_true, List.all_eq_true] at h3
    exact ⟨h3.1, h3.2⟩

theorem wfICells_above {fd : Nat → String} :
    ∀ (rest : List (List SerialValue × ITree)) (right : ITree)
      (r : List SerialValue) (t : ITree),
      wfICells fd ((r, t) :: rest) right = true →
      ∀ e ∈ ientriesGo rest ++ ientries right,
        strLeB (keyOf fd r) (keyOf fd e) = true := by
  intro rest
  induction rest with
  | nil =>
    intro right r t h e he
    obtain ⟨-, -, h3, -⟩ := wfICells_cons_parts h
    simp only [ientriesGo, List.nil_append] at he
    exact h3 e he
  | cons c' rest' ih =>
    intro right r t h e he
    obtain ⟨r', t'⟩ := c'
    obtain ⟨-, -, h3, h4⟩ := wfICells_cons_parts h
    obtain ⟨hk, ht'⟩ := h3
    simp only [ientriesGo, List.mem_append, List.mem_cons] at he
    rcases he with (he | rfl | he) | he
    · exact ht' e he
    · exact hk
    · have hrec := ih right r' t' h4 e (List.mem_append.mpr (Or.inl he))
      exact strLeB_trans hk hrec
    · have hrec := ih right r' t' h4 e (List.mem_append.mpr (Or.inr he))
      exact strLeB_trans hk hrec

theorem wfICells_right_above {fd : Nat → String} :
    ∀ (cells : List (List SerialValue × ITree)) (right : ITree)
      (lc : List SerialValue × ITree),
      wfICells fd cells right = true → cells.getLast? = some lc →
      ∀ e ∈ ientries right, strLeB (keyOf fd lc.1) (keyOf fd e) = true := by
  intro cells
  induction cells with
  | nil => intro right lc _ hlast; cases hlast
  | cons c rest ih =>
    intro right lc h hlast e he
    obtain ⟨r, t⟩ := c
    obtain ⟨-, -, h3, h4⟩ := wfICells_cons_parts h
    cases rest with
    | nil =>
      simp only [List.getLast?_singleton, Option.some.injEq] at hlast
      subst hlast
      exact h3 e he
    | cons c' rest' =>
      rw [List.getLast?_cons_cons] at hlast
      exact ih right lc h4 hlast e he

theorem cellsMatches_eq (fd : Nat → String) (q : String) :
    ∀ cells : List (List SerialValue × ITree),
      cellsMatches fd q cells =
        ((ientriesGo cells).filter fun r => keyOf fd r == q).map rowidOf := by
  intro cells
  induction cells with
  | nil => rfl
  | cons c rest ih =>
    obtain ⟨r, t⟩ := c
    have hstep : cellsMatches fd q ((r, t) :: rest) =
        (specMatches fd q t ++ (if keyOf fd r == q then [rowidOf r] else [])) ++
          cellsMatches fd q rest := by
      simp only [cellsMatches, List.flatMap_cons]
    rw [hstep, ih, specMatches]
    by_cases hp : (keyOf fd r == q) = true
    · simp [ientriesGo, List.filter_append, List.filter_cons, hp, List.append_assoc]
    · simp [ientriesGo, List.filter_append, List.filter_cons, hp, List.append_assoc]

theorem filterKey_nil_of_gt (fd : Nat → String) (q k : String)
    (es : List (List SerialValue)) (hgt : strCmp k q = .gt)
    (hab : ∀ e ∈ es, strLeB k (keyOf fd e) = true) :
    (es.filter fun r => keyOf fd r == q) = [] := by
  rw [List.filter_eq_nil_iff]
  intro e he
  simp only [beq_iff_eq]
  intro hEq
  have h2 := strGt_compose hgt (hab e he)
  rw [hEq] at h2
  have h3 : strCmp q q = .eq := (strCmp_eq_iff q q).mpr rfl
  rw [h3] at h2
  cases h2

theorem filterKey_nil_of_lt (fd : Nat → String) (q k : String)
    (es : List (List SerialValue)) (hlt : strCmp k q = .lt)
    (hab : ∀ e ∈ es, strLeB (keyOf fd e) k = true) :
    (es.filter fun r => keyOf fd r == q) = [] := by
  rw [List.filter_eq_nil_iff]
  intro e he
  simp only [beq_iff_eq]
  intro hEq
  have h2 := strLt_compose hlt (hab e he)
  rw [hEq] at h2
  have h3 : strCmp q q = .eq := (strCmp_eq_iff q q).mpr rfl
  rw [h3] at h2
  cases h2

theorem searchLeaf_spec (fd : Nat → String) (q : String) :
    ∀ cells : List (List SerialValue),
      cells.all arity2 = true →
      searchLeaf fd q cells =
        some ((cells.filter fun r => keyOf fd r == q).map rowidOf) := by
  intro cells
  induction cells with
  | nil => intro _; rfl
  | cons c cs ih =>
    intro hall
    simp only [List.all_cons, Bool.and_eq_true] at hall
    obtain ⟨hc, hcs⟩ := hall
    obtain ⟨a, b, rfl, -⟩ := arity2_shape hc
    simp only [searchLeaf, List.head?_cons, ih hcs, List.filter_cons]
    by_cases hq : SerialValue.display fd a = q
    · rw [if_pos hq]
      have hkey : (keyOf fd [a, b] == q) = true := by
        simp only [keyOf, List.headD_cons, beq_iff_eq]; exact hq
      rw [hkey]
      simp [rowidOf]
    · rw [if_neg hq]
      have hkey : (keyOf fd [a, b] == q) = false := by
        simp only [keyOf, List.headD_cons, beq_eq_false_iff_ne, ne_eq]
        exact hq
      rw [hkey]
      simp

theorem cellsMatches_cons (fd : Nat → String) (q : String)
    (r : List SerialValue) (t : ITree) (rest : List (List SerialValue × ITree)) :
    cellsMatches fd q ((r, t) :: rest) =
      (specMatches fd q t ++ (if keyOf fd r == q then [rowidOf r] else [])) ++
        cellsMatches fd q rest := by
  simp only [cellsMatches, List.flatMap_cons]

theorem specMatches_interior (fd : Nat → String) (q : String)
    (cells : List (List SerialValue × ITree)) (right : ITree) :
    specMatches fd q (.interior cells right) =
      cellsMatches fd q cells ++ specMatches fd q right := by
  simp only [specMatches, ientries, List.filter_append, List.map_append,
    cellsMatches_eq]

mutual

theorem searchIndex_spec :
    ∀ (t : ITree) (fd : Nat → String) (q : String),
      wfI fd t = true → (ientries t).all arity2 = true →
      searchIndex fd q t = some (specMatches fd q t)
  | .leaf cells, fd, q, hwf, harity => by
    simp only [searchIndex, specMatches, ientries]
    exact searchLeaf_spec fd q cells harity
  | .interior cells right, fd, q, hwf, harity => by
    obtain ⟨hne, hwfc, hwfr⟩ := wfI_interior_parts hwf
    have harGo : (ientriesGo cells).all arity2 = true ∧
        (ientries right).all arity2 = true := by
      simpa only [ientries, List.all_append, Bool.and_eq_true] using harity
    cases cells with
    | nil => exact absurd rfl hne
    | cons c0 rest0 =>
      obtain ⟨lc, hlast⟩ : ∃ lc, (c0 :: rest0).getLast? = some lc := by
        cases hgl : (c0 :: rest0).getLast? with
        | some lc => exact ⟨lc, rfl⟩
        | none => simp at hgl
      have hguard := ientriesGo_arity_decode harGo.1
      have hloop := searchLoop_spec (c0 :: rest0) right fd q lc hwfc harGo.1 hlast
      simp only [searchIndex, hguard, eq_self_iff_true, if_true, hloop]
      by_cases hflag : strLeB (keyOf fd lc.1) q = true
      · have hrec := searchIndex_spec right fd q hwfr harGo.2
        simp only [hflag, eq_self_iff_true, if_true, hrec, specMatches_interior]
      · rw [Bool.not_eq_true] at hflag
        have hgt : strCmp (keyOf fd lc.1) q = .gt := (strLeB_false_iff _ _).mp hflag
        have habove := wfICells_right_above (c0 :: rest0) right lc hwfc hlast
        have hnil : specMatches fd q right = [] := by
          unfold specMatches
          rw [filterKey_nil_of_gt fd q (keyOf fd lc.1) (ientries right) hgt habove]
          rfl
        simp only [hflag, Bool.false_eq_true, if_false, specMatches_interior, hnil,
          List.append_nil]
termination_by t fd q => sizeOf t

theorem searchLoop_spec :
    ∀ (cells : List (List SerialValue × ITree)) (right : ITree)
      (fd : Nat → String) (q : String) (lc : List SerialValue × ITree),
      wfICells fd cells right = true →
      (ientriesGo cells).all arity2 = true →
      cells.getLast? = some lc →
      searchLoop fd q cells =
        some (cellsMatches fd q cells, strLeB (keyOf fd lc.1) q)
  | [], _, _, _, _, _, _, hlast => by cases hlast
  | (r, child) :: rest, right, fd, q, lc, hwfc, harity, hlast => by
    obtain ⟨hwfChild, hchildLe, -, hwfRest⟩ := wfICells_cons_parts hwfc
    have harParts : (ientries child).all arity2 = true ∧ arity2 r = true ∧
        (ientriesGo rest).all arity2 = true := by
      simpa only [ientriesGo, List.all_append, List.all_cons,
        Bool.and_eq_true] using harity
    obtain ⟨harChild, har2, harRest⟩ := harParts
    obtain ⟨a, b, rfl, -⟩ := arity2_shape har2
    have hdec : decodeICell [a, b] = some ([a], rowidOf [a, b]) :=
      arity2_decode har2
    have hkeyr : keyOf fd [a, b] = SerialValue.display fd a := by
      simp only [keyOf, List.headD_cons]
    simp only [searchLoop, hdec, List.head?_cons]
    cases hcmp : strCmp (SerialValue.display fd a) q with
    | gt =>
      dsimp only
      have hrec := searchIndex_spec child fd q hwfChild harChild
      rw [hrec]
      dsimp only
      have hgt : strCmp (keyOf fd [a, b]) q = .gt := by rw [hkeyr]; exact hcmp
      have hkeyF : (keyOf fd [a, b] == q) = false := by
        simp only [beq_eq_false_iff_ne, ne_eq]
        intro hEq
        rw [hEq] at hgt
        have h3 : strCmp q q = .eq := (strCmp_eq_iff q q).mpr rfl
        rw [h3] at hgt
        cases hgt
      have habove := wfICells_above rest right [a, b] child hwfc
      have hrestNil : cellsMatches fd q rest = [] := by
        rw [cellsMatches_eq]
        rw [filterKey_nil_of_gt fd q (keyOf fd [a, b]) (ientriesGo rest) hgt
          (fun e he => habove e (List.mem_append.mpr (Or.inl he)))]
        rfl
      have hflagF : strLeB (keyOf fd lc.1) q = false := by
        rw [strLeB_false_iff]
        cases rest with
        | nil =>
          simp only [List.getLast?_singleton, Option.some.injEq] at hlast
          subst hlast
          exact hgt
        | cons c' rest' =>
          rw [List.getLast?_cons_cons] at hlast
          have hmem : lc ∈ c' :: rest' := List.mem_of_mem_getLast? hlast
          have hle : strLeB (keyOf fd [a, b]) (keyOf fd lc.1) = true :=
            habove lc.1 (List.mem_append.mpr (Or.inl
              (cellRecord_mem_ientriesGo _ lc hmem)))
          exact strGt_compose hgt hle
      rw [hflagF, cellsMatches_cons, hkeyF, hrestNil]
      simp
    | eq =>
      dsimp only
      have hrec := searchIndex_spec child fd q hwfChild harChild
      rw [hrec]
      dsimp only
      have hq : SerialValue.display fd a = q :=
        (strCmp_eq_iff (SerialValue.display fd a) q).mp hcmp
      have hkeyP : keyOf fd [a, b] = q := by rw [hkeyr]; exact hq
      cases rest with
      | nil =>
        dsimp only
        simp only [List.getLast?_singleton, Option.some.injEq] at hlast
        subst hlast
        have hflagT : strLeB (keyOf fd [a, b]) q = true := by
          rw [strLeB_true_iff, hkeyr, hcmp]
          simp
        dsimp only
        rw [hflagT]
        simp [cellsMatches, hkeyP]
      | cons c' rest' =>
        rw [List.getLast?_cons_cons] at hlast
        have hrecLoop := searchLoop_spec (c' :: rest') right fd q lc hwfRest
          harRest hlast
        rw [hrecLoop]
        dsimp only
        simp [cellsMatches, hkeyP, List.append_assoc]
    | lt =>
      dsimp only
      have hlt : strCmp (keyOf fd [a, b]) q = .lt := by rw [hkeyr]; exact hcmp
      have hkeyNe : ¬ keyOf fd [a, b] = q := by
        intro hEq
        rw [hEq] at hlt
        have h3 : strCmp q q = .eq := (strCmp_eq_iff q q).mpr rfl
        rw [h3] at hlt
        cases hlt
      have hchildNil : specMatches fd q child = [] := by
        unfold specMatches
        rw [filterKey_nil_of_lt fd q (keyOf fd [a, b]) (ientries child) hlt
          hchildLe]
        rfl
      cases rest with
      | nil =>
        dsimp only
        simp only [List.getLast?_singleton, Option.some.injEq] at hlast
        subst hlast
        have hflagT : strLeB (keyOf fd [a, b]) q = true := by
          rw [strLeB_true_iff, hkeyr, hcmp]
          simp
        rw [hflagT]
        simp [cellsMatches, hkeyNe, hchildNil]
      | cons c' rest' =>
        rw [List.getLast?_cons_cons] at hlast
        have hrecLoop := searchLoop_spec (c' :: rest') right fd q lc hwfRest
          harRest hlast
        dsimp only
        rw [hrecLoop]
        simp [cellsMatches, hkeyNe, hchildNil]
termination_by cells right fd q lc => sizeOf cells + sizeOf right

end

/-- C1, counterexample to the original claim: on a leaf index page the
code emits `c[1]`, the second record column, not the last one.  A
well-formed leaf whose single matching cell is the three-column record
`(text "a", 5, 7)` makes `search_index` return `[5]` while the set of
last-column row-ids of the matching entries is `[7]`. -/
theorem searchIndex_last_column_counterexample :
    wfI (fun _ => "") (.leaf [[.text "a", .int8 5, .int8 7]]) = true ∧
    searchIndex (fun _ => "") "a" (.leaf [[.text "a", .int8 5, .int8 7]]) =
      some [5] ∧
    specMatches (fun _ => "") "a" (.leaf [[.text "a", .int8 5, .int8 7]]) =
      [7] :=
  ⟨by decide, by decide, by decide⟩

/-- C1 (corrected): for every well-formed index B-tree all of whose
entries are two-column records (the indexed column plus a rowid column
that `as_rowid` accepts — the shape a single-column index produces) and
every query string, `search_index` succeeds and returns exactly the
row-ids of the index entries whose first column, rendered as text,
equals the query, in entry order.  For such entries `c[1]` and the last
column coincide; the restriction is necessary by the counterexample. -/
theorem searchIndex_correct (fd : Nat → String) (q : String) (t : ITree)
    (hwf : wfI fd t = true) (har : iarityAll t = true) :
    searchIndex fd q t = some (specMatches fd q t) :=
  searchIndex_spec t fd q hwf har

/-- Witness for C1 at a two-level tree: the interior cell's own entry
`(text "b", 2)` is the unique match for query `"b"`. -/
theorem searchIndex_correct_witness :
    (wfI (fun _ => "")
        (.interior [([.text "b", .int8 2], .leaf [[.text "a", .int8 1]])]
          (.leaf [[.text "c", .int8 3]])) = true ∧
      iarityAll
        (.interior [([.text "b", .int8 2], .leaf [[.text "a", .int8 1]])]
          (.leaf [[.text "c", .int8 3]])) = true) ∧
    searchIndex (fun _ => "") "b"
        (.interior [([.text "b", .int8 2], .leaf [[.text "a", .int8 1]])]
          (.leaf [[.text "c", .int8 3]])) =
      some (specMatches (fun _ => "") "b"
        (.interior [([.text "b", .int8 2], .leaf [[.text "a", .int8 1]])]
          (.leaf [[.text "c", .int8 3]]))) :=
  ⟨⟨by decide, by decide⟩,
    searchIndex_correct (fun _ => "") "b" _ (by decide) (by decide)⟩
